import Mathlib

/-!
Verification of the QuickDashEngine dashboard-processing library.

The engine (src/core/quick-dash-engine.ts) is embedded shallowly:

* JS objects used as string-keyed dictionaries (`QueryMap`, `calculatedValues`,
  `panelCache`, `Variables`) become association lists `List (String × α)` with
  first-match lookup and overwrite-or-append assignment, mirroring JS property
  access and assignment.
* The async generators become fuel-indexed functions returning `Option`: a
  `while` loop whose body runs once per fuel unit; `none` for every fuel value
  means the loop never finishes.
* The injected capabilities (the query runner `executeQuery` and the mathjs
  expression evaluator) are parameters: `String → Option Int` (a `none` result
  is a rejected promise) and `String → List (String × Int) → Int`.
* `Promise.allSettled` returns its results array in input order (JS semantics),
  so a settled batch is the input batch filtered by success, in input order.
-/

/-- First-match lookup in an association list, i.e. JS property read `obj[k]`
on an object built only by assignments. -/
def lookupA {α : Type} : List (String × α) → String → Option α
  | [], _ => none
  | p :: rest, k => if p.1 = k then some p.2 else lookupA rest k

/-- JS property assignment `obj[k] = v`: overwrite the existing entry in place
or append a new one. -/
def setVal {α : Type} : List (String × α) → String → α → List (String × α)
  | [], k, v => [(k, v)]
  | p :: rest, k, v => if p.1 = k then (k, v) :: rest else p :: setVal rest k v

/-- JS truthiness of a looked-up string property: present and non-empty. -/
def jsTruthy : Option String → Bool
  | some s => s ≠ ""
  | none => false

/-- A metric of a panel (src/types/metrics-to-compute.ts): identifier,
expression text and the list of dependency identifiers. -/
structure Metric where
  id : String
  expression : String
  dependencies : List String
deriving DecidableEq

/-- A panel (src/types/panel.ts): a title and its metrics. -/
structure Panel where
  title : String
  metrics : List Metric
deriving DecidableEq

/-- A dashboard configuration (src/types/dashboard-config.ts): the query map,
the optional declared variable names, and the panels. -/
structure DashboardConfig where
  queries : List (String × String)
  declaredVars : Option (List String)
  panels : List Panel
deriving DecidableEq

/-- A per-panel result (src/types/dashboard-result.ts): panel title plus the
ordered (identifier, value) pairs produced for it. -/
structure PanelResult where
  panel : String
  results : List (String × Int)
deriving DecidableEq

/-- `QuickDashEngine.processQueries`: drain the entry list in batches of at
most `maxN` (`splice(0, maxN)`, so a non-positive `maxN` removes nothing),
run the whole batch, and yield the fulfilled results in the order
`Promise.allSettled` reports them, which is the batch's input order; rejected
queries are only logged.  One fuel unit per `while` iteration; `none` means
the loop never terminates. -/
def processQueries (executeQuery : String → Option Int) (maxN : Int) :
    Nat → List (String × String) → Option (List (String × Int))
  | _, [] => some []
  | 0, _ :: _ => none
  | fuel + 1, e :: rest =>
    let entries := e :: rest
    let out := (entries.take maxN.toNat).filterMap
      (fun p => (executeQuery p.2).map (fun v => (p.1, v)))
    (processQueries executeQuery maxN fuel (entries.drop maxN.toNat)).map
      (fun tail => out ++ tail)

/-- One pass of the inner `for (let i = pendingMetrics.length - 1; i >= 0; i--)`
loop of `processCalculations`: the list is visited from the last element to the
first, each metric whose dependencies are all present is evaluated, written to
`calculatedValues` and yielded, and spliced out of the pending list.  Returns
(remaining pending metrics, yielded pairs, updated values). -/
def calcSweep (evalE : String → List (String × Int) → Int) :
    List Metric → List (String × Int) →
    List Metric × List (String × Int) × List (String × Int)
  | [], cv => ([], [], cv)
  | m :: rest, cv =>
    if m.dependencies.all
        (fun d => (lookupA (calcSweep evalE rest cv).2.2 d).isSome) then
      ((calcSweep evalE rest cv).1,
       (calcSweep evalE rest cv).2.1 ++
         [(m.id, evalE m.expression (calcSweep evalE rest cv).2.2)],
       setVal (calcSweep evalE rest cv).2.2 m.id
         (evalE m.expression (calcSweep evalE rest cv).2.2))
    else
      (m :: (calcSweep evalE rest cv).1, (calcSweep evalE rest cv).2.1,
       (calcSweep evalE rest cv).2.2)

/-- The `while (pendingMetrics.length > 0)` loop of `processCalculations`:
sweep repeatedly until no metric is pending.  One fuel unit per iteration;
`none` for every fuel means the loop runs forever. -/
def calcLoop (evalE : String → List (String × Int) → Int) :
    Nat → List Metric → List (String × Int) →
    Option (List (String × Int) × List (String × Int))
  | _, [], cv => some ([], cv)
  | 0, _ :: _, _ => none
  | fuel + 1, m :: rest, cv =>
    (calcLoop evalE fuel (calcSweep evalE (m :: rest) cv).1
        (calcSweep evalE (m :: rest) cv).2.2).map
      (fun r => ((calcSweep evalE (m :: rest) cv).2.1 ++ r.1, r.2))

/-- The `for await` drain at the top of `processCalculations`: every pair the
query stream produced is assigned into `calculatedValues` (and not yielded). -/
def drainQueries (cv : List (String × Int)) (qres : List (String × Int)) :
    List (String × Int) :=
  qres.foldl (fun c p => setVal c p.1 p.2) cv

/-- `QuickDashEngine.processCalculations`: drain the query stream into the
shared value map, then resolve the pending metrics by repeated sweeps. -/
def processCalculations (evalE : String → List (String × Int) → Int)
    (fuel : Nat) (metricsToCompute : List Metric)
    (queryResults : List (String × Int)) (calculatedValues : List (String × Int)) :
    Option (List (String × Int) × List (String × Int)) :=
  calcLoop evalE fuel metricsToCompute (drainQueries calculatedValues queryResults)

/-- One step of the `reduce` that builds `relevantQueries` in
`processPanelResults`: add dependency `d` when `queries[d]` is truthy and
`acc[d]` is not. -/
def depStep (queries : List (String × String)) (acc : List (String × String))
    (d : String) : List (String × String) :=
  if jsTruthy (lookupA queries d) && !jsTruthy (lookupA acc d) then
    acc ++ [(d, (lookupA queries d).getD "")]
  else
    acc

/-- The `relevantQueries` accumulator of `processPanelResults`: for each metric
of the panel, in order, each dependency that names a (truthy) query and is not
yet accumulated is added with its query text. -/
def relevantQueries (queries : List (String × String)) (p : Panel) :
    List (String × String) :=
  p.metrics.foldl (fun acc m => m.dependencies.foldl (depStep queries) acc) []

/-- The observable state threaded through one `executeDashboard` call: the
shared `calculatedValues` map, the `panelCache`, the trace of query texts
passed to `executeQuery`, and the trace of assignments into
`calculatedValues`. -/
structure ExecState where
  calcVals : List (String × Int)
  cache : List (String × PanelResult)
  queryCalls : List String
  assigns : List (String × Int)
deriving DecidableEq

/-- The fresh state created at the start of `executeDashboard`. -/
def initState : ExecState := ⟨[], [], [], []⟩

/-- The body of one (non-cached) panel iteration of `processPanelResults`:
compute the panel's relevant queries, batch-execute them, feed the results and
the panel's metrics to `processCalculations` against the shared value map,
record the panel result in the cache. -/
def runPanel (executeQuery : String → Option Int)
    (evalE : String → List (String × Int) → Int) (maxN : Int)
    (qfuel rfuel : Nat) (queries : List (String × String)) (p : Panel)
    (st : ExecState) : Option (PanelResult × ExecState) :=
  let rq := relevantQueries queries p
  match processQueries executeQuery maxN qfuel rq with
  | none => none
  | some qres =>
    match processCalculations evalE rfuel p.metrics qres st.calcVals with
    | none => none
    | some (ys, calc2) =>
      let res : PanelResult := ⟨p.title, ys⟩
      some (res, ⟨calc2, setVal st.cache p.title res,
                  st.queryCalls ++ rq.map Prod.snd,
                  st.assigns ++ qres ++ ys⟩)

/-- `QuickDashEngine.processPanelResults`: iterate the panels in order; in
streaming mode a title already in the cache is served from the cache (the
cached object is always truthy) and nothing else happens; otherwise the panel
is computed, cached and yielded. -/
def processPanelResults (executeQuery : String → Option Int)
    (evalE : String → List (String × Int) → Int) (maxN : Int)
    (qfuel rfuel : Nat) (useStream : Bool) (queries : List (String × String)) :
    List Panel → ExecState → Option (List PanelResult × ExecState)
  | [], st => some ([], st)
  | p :: ps, st =>
    match (if useStream then lookupA st.cache p.title else none) with
    | some r =>
      (processPanelResults executeQuery evalE maxN qfuel rfuel useStream
        queries ps st).map (fun x => (r :: x.1, x.2))
    | none =>
      match runPanel executeQuery evalE maxN qfuel rfuel queries p st with
      | none => none
      | some (r, st') =>
        (processPanelResults executeQuery evalE maxN qfuel rfuel useStream
          queries ps st').map (fun x => (r :: x.1, x.2))

/-- `QuickDashEngine.executeDashboard`: run `processPanelResults` over the
dashboard's panels from a fresh state.  In aggregate mode the generator is
drained into a list; in streaming mode it is handed to the caller, and the
value modelled here is that sequence fully drained. -/
def executeDashboard (executeQuery : String → Option Int)
    (evalE : String → List (String × Int) → Int) (maxN : Int)
    (qfuel rfuel : Nat) (cfg : DashboardConfig) (useStream : Bool) :
    Option (List PanelResult × ExecState) :=
  processPanelResults executeQuery evalE maxN qfuel rfuel useStream
    cfg.queries cfg.panels initState

/-- Modelled from the spec: the injected Expression Evaluator capability
(spec section 6, `(expression, bindings) -> number`, external to the engine),
instantiated for the arithmetic expressions used by the concrete examples in
this file; an absent binding reads as 0. -/
def evalX (e : String) (b : List (String × Int)) : Int :=
  if e = "a + b" then (lookupA b "a").getD 0 + (lookupA b "b").getD 0
  else if e = "x + 1" then (lookupA b "x").getD 0 + 1
  else if e = "a + 1" then (lookupA b "a").getD 0 + 1
  else if e = "a + 2" then (lookupA b "a").getD 0 + 2
  else if e = "g + 1" then (lookupA b "g").getD 0 + 1
  else 0

/-- Query runner for the end-to-end example of the spec (section 8): query
text "qa" returns 1, "qb" returns 2. -/
def execAB (q : String) : Option Int :=
  if q = "qa" then some 1 else if q = "qb" then some 2 else none

/-- The end-to-end example dashboard of the spec (section 8): queries
`{a ↦ "qa", b ↦ "qb"}` and one panel "P" with the single metric `sum`. -/
def cfgAB : DashboardConfig :=
  ⟨[("a", "qa"), ("b", "qb")], none,
   [⟨"P", [⟨"sum", "a + b", ["a", "b"]⟩]⟩]⟩

/-- Length bound used for the termination of the token scanner. -/
theorem dropWhile_length_le (p : Char → Bool) :
    ∀ l : List Char, (l.dropWhile p).length ≤ l.length := by
  intro l
  induction l with
  | nil => simp [List.dropWhile]
  | cons c cs ih =>
    by_cases h : p c = true
    · simp [List.dropWhile, h]
      omega
    · simp [List.dropWhile, h]

/-- A JS word character, the `\w` class of the token regex
`/\{\{(\w+)\}\}/g` in `QuickDashParser.replaceVariables`. -/
def isWordChar (c : Char) : Bool := c.isAlpha || c.isDigit || c = '_'

/-- `QuickDashParser.replaceVariables` over the character list of the template:
scan left to right; at `{{` followed by a non-empty word-character run and
`}}`, substitute the variable's value or throw naming the token; on any other
character (including a `{{` not completing a token) copy one character and
continue.  This matches the left-to-right, non-overlapping behaviour of
`String.replace` with the global regex. -/
def replaceVarsAux (vars : List (String × String)) :
    List Char → Except String (List Char)
  | [] => Except.ok []
  | '{' :: '{' :: rest =>
    if rest.takeWhile isWordChar ≠ [] ∧
        (rest.dropWhile isWordChar).take 2 = ['}', '}'] then
      match lookupA vars (String.mk (rest.takeWhile isWordChar)) with
      | some v =>
        (replaceVarsAux vars ((rest.dropWhile isWordChar).drop 2)).map
          (fun t => v.data ++ t)
      | none =>
        Except.error ("Missing required variable: " ++
          String.mk (rest.takeWhile isWordChar))
    else
      (replaceVarsAux vars ('{' :: rest)).map (fun t => '{' :: t)
  | c :: cs => (replaceVarsAux vars cs).map (fun t => c :: t)
termination_by l => l.length
decreasing_by
  · simp only [List.length_cons]
    have h1 := dropWhile_length_le isWordChar rest
    have h2 : (List.drop 2 (List.dropWhile isWordChar rest)).length ≤
        (List.dropWhile isWordChar rest).length := by
      simp [List.length_drop]
    omega
  · simp only [List.length_cons]
    omega
  · simp only [List.length_cons]
    omega

/-- The variable tokens a template string references, in scan order, following
exactly the scanner of `replaceVarsAux`. -/
def tokenList : List Char → List String
  | [] => []
  | '{' :: '{' :: rest =>
    if rest.takeWhile isWordChar ≠ [] ∧
        (rest.dropWhile isWordChar).take 2 = ['}', '}'] then
      String.mk (rest.takeWhile isWordChar) ::
        tokenList ((rest.dropWhile isWordChar).drop 2)
    else
      tokenList ('{' :: rest)
  | _ :: cs => tokenList cs
termination_by l => l.length
decreasing_by
  · simp only [List.length_cons]
    have h1 := dropWhile_length_le isWordChar rest
    have h2 : (List.drop 2 (List.dropWhile isWordChar rest)).length ≤
        (List.dropWhile isWordChar rest).length := by
      simp [List.length_drop]
    omega
  · simp only [List.length_cons]
    omega
  · simp only [List.length_cons]
    omega

/-- `QuickDashParser.replaceVariables` on a string. -/
def replaceVariables (template : String) (vars : List (String × String)) :
    Except String String :=
  (replaceVarsAux vars template.data).map String.mk

/-- The substitution pass over the query map, in entry order, stopping at the
first failing template (the thrown error propagates out of the `.map`). -/
def substQueries (vars : List (String × String)) :
    List (String × String) → Except String (List (String × String))
  | [] => Except.ok []
  | (k, q) :: rest => do
    let q' ← replaceVariables q vars
    let rest' ← substQueries vars rest
    Except.ok ((k, q') :: rest')

/-- The substitution pass over one panel's metrics: only the expression string
is substituted. -/
def substMetrics (vars : List (String × String)) :
    List Metric → Except String (List Metric)
  | [] => Except.ok []
  | m :: rest => do
    let e' ← replaceVariables m.expression vars
    let rest' ← substMetrics vars rest
    Except.ok (⟨m.id, e', m.dependencies⟩ :: rest')

/-- The substitution pass over the panels, in order. -/
def substPanels (vars : List (String × String)) :
    List Panel → Except String (List Panel)
  | [] => Except.ok []
  | p :: rest => do
    let ms ← substMetrics vars p.metrics
    let rest' ← substPanels vars rest
    Except.ok (⟨p.title, ms⟩ :: rest')

/-- The body of `QuickDashParser.exec` after the declared-variables check:
substitute the queries (in entry order), then the panels' metric expressions;
the first thrown `Missing required variable` error is returned as the
failure. -/
def execBody (template : DashboardConfig) (vars : List (String × String)) :
    Except String DashboardConfig := do
  let qs ← substQueries vars template.queries
  let ps ← substPanels vars template.panels
  Except.ok ⟨qs, template.declaredVars, ps⟩

/-- `QuickDashParser.exec`: if the template declares variables, every declared
name absent from the supplied mapping is collected and, when any is missing,
the call fails naming all of them at once; otherwise substitution runs and its
first failure (if any) is returned. -/
def QuickDashParser.exec (template : DashboardConfig)
    (vars : List (String × String)) : Except String DashboardConfig :=
  match template.declaredVars with
  | some decls =>
    let missing := decls.filter (fun v => (lookupA vars v).isNone)
    if missing.isEmpty then execBody template vars
    else Except.error ("Missing required variables: " ++
      String.intercalate ", " missing)
  | none => execBody template vars

/-- All variable tokens referenced anywhere in a template: in its query texts
and in its metric expressions. -/
def templateTokens (t : DashboardConfig) : List String :=
  (t.queries.map (fun p => tokenList p.2.data)).flatten ++
  ((t.panels.map (fun p => (p.metrics.map
    (fun m => tokenList m.expression.data)).flatten)).flatten)

/-- Modelled from the spec: the completion order of one concurrently
dispatched batch (spec section 4.2), given each query text's duration —
the batch sorted by increasing duration.  The engine itself never observes
this order: `Promise.allSettled`'s result array is in input order. -/
def insertDur (dur : String → Nat) (p : String × String) :
    List (String × String) → List (String × String)
  | [] => [p]
  | q :: rest =>
    if dur q.2 ≤ dur p.2 then q :: insertDur dur p rest else p :: q :: rest

/-- Modelled from the spec: sort a batch by completion time (duration). -/
def completionOrder (dur : String → Nat) :
    List (String × String) → List (String × String)
  | [] => []
  | p :: rest => insertDur dur p (completionOrder dur rest)

/-- Query runner used by the shared-dependency and failing-query examples:
"qa" returns 5, "qg" returns 7, "qh" returns 8, anything else (in particular
"qf") rejects. -/
def execG (q : String) : Option Int :=
  if q = "qa" then some 5
  else if q = "qg" then some 7
  else if q = "qh" then some 8
  else none

/-- A dashboard whose only metric depends on the unknown identifier "x":
no query and no metric ever resolves it. -/
def cfgUnknownDep : DashboardConfig :=
  ⟨[], none, [⟨"P", [⟨"m", "x + 1", ["x"]⟩]⟩]⟩

/-- A dashboard whose two metrics depend on each other: a dependency cycle. -/
def cfgCycle : DashboardConfig :=
  ⟨[], none, [⟨"P", [⟨"m1", "x + 1", ["m2"]⟩, ⟨"m2", "x + 1", ["m1"]⟩]⟩]⟩

/-- Two panels that share the query dependency "a". -/
def cfgShared : DashboardConfig :=
  ⟨[("a", "qa")], none,
   [⟨"P1", [⟨"m1", "a + 1", ["a"]⟩]⟩,
    ⟨"P2", [⟨"m2", "a + 2", ["a"]⟩]⟩]⟩

/-- A dashboard with one failing query ("qf" rejects under `execG`) and one
panel whose metric depends only on the succeeding query "g". -/
def cfgFail : DashboardConfig :=
  ⟨[("f", "qf"), ("g", "qg")], none, [⟨"P", [⟨"mg", "g + 1", ["g"]⟩]⟩]⟩

/-- A non-empty query map with no panels at all. -/
def cfgNoPanels : DashboardConfig :=
  ⟨[("a", "qa")], none, []⟩

/-- Query runner for the completion-order example: both queries succeed. -/
def execDur (q : String) : Option Int :=
  if q = "sq1" then some 1 else if q = "sq2" then some 2 else none

/-- Durations for the completion-order example: the first query of the batch
is slow, the second fast. -/
def durEx (q : String) : Nat := if q = "sq1" then 10 else 1

/-- A pending-metric list with a forward reference: "y" (declared first)
depends on "x" (declared second), which depends on queries "a" and "b". -/
def metricsFwd : List Metric :=
  [⟨"y", "x + 1", ["x"]⟩, ⟨"x", "a + b", ["a", "b"]⟩]

theorem lookupA_setVal_self {α : Type} (l : List (String × α)) (k : String)
    (v : α) : lookupA (setVal l k v) k = some v := by
  induction l with
  | nil => simp [setVal, lookupA]
  | cons p rest ih =>
    by_cases h : p.1 = k
    · simp [setVal, h, lookupA]
    · simp [setVal, h, lookupA, ih]

theorem lookupA_setVal_ne {α : Type} (l : List (String × α)) {k k' : String}
    (h : k' ≠ k) (v : α) : lookupA (setVal l k v) k' = lookupA l k' := by
  induction l with
  | nil => simp [setVal, lookupA, Ne.symm h]
  | cons p rest ih =>
    by_cases hp : p.1 = k
    · simp [setVal, hp, lookupA, Ne.symm h, hp ▸ (Ne.symm h)]
    · by_cases hp' : p.1 = k'
      · simp [setVal, hp, lookupA, hp', h]
      · simp [setVal, hp, lookupA, hp', ih]

theorem lookupA_isSome_iff_mem {α : Type} (l : List (String × α)) (k : String) :
    (lookupA l k).isSome ↔ k ∈ l.map Prod.fst := by
  induction l with
  | nil => simp [lookupA]
  | cons p rest ih =>
    by_cases h : p.1 = k
    · simp [lookupA, h]
    · simp [lookupA, h, ih, Ne.symm h]

theorem lookupA_mem {α : Type} {l : List (String × α)} {k : String} {v : α}
    (h : lookupA l k = some v) : (k, v) ∈ l := by
  induction l with
  | nil => simp [lookupA] at h
  | cons p rest ih =>
    by_cases hp : p.1 = k
    · simp [lookupA, hp] at h
      cases p
      simp_all
    · simp [lookupA, hp] at h
      right
      exact ih h

theorem lookupA_eq_none_iff {α : Type} (l : List (String × α)) (k : String) :
    lookupA l k = none ↔ k ∉ l.map Prod.fst := by
  rw [← lookupA_isSome_iff_mem]
  cases lookupA l k <;> simp

/-- With a positive concurrency ceiling the batching loop terminates in at most
one iteration per entry, and the yielded sequence is exactly the input entry
list filtered by successful execution, in input order. -/
theorem processQueries_complete (executeQuery : String → Option Int)
    (n : Int) (hn : 1 ≤ n) :
    ∀ (fuel : Nat) (es : List (String × String)), es.length ≤ fuel →
      processQueries executeQuery n fuel es =
        some (es.filterMap (fun p => (executeQuery p.2).map (fun v => (p.1, v)))) := by
  intro fuel
  induction fuel with
  | zero =>
    intro es hlen
    have : es = [] := by
      cases es with
      | nil => rfl
      | cons e r => simp at hlen
    subst this
    simp [processQueries]
  | succ fuel ih =>
    intro es hlen
    cases es with
    | nil => simp [processQueries]
    | cons e rest =>
      have hbatch : (1:Nat) ≤ n.toNat := by omega
      have hdrop : ((e :: rest).drop n.toNat).length ≤ fuel := by
        simp only [List.length_drop]
        simp only [List.length_cons] at hlen ⊢
        omega
      rw [processQueries]
      rw [ih _ hdrop]
      simp [← List.filterMap_append]

/-- With a non-positive concurrency ceiling, `splice(0, maxN)` extracts an
empty batch and leaves the entry list unchanged, so on a non-empty entry list
the batching loop never terminates. -/
theorem processQueries_stuck (executeQuery : String → Option Int)
    (n : Int) (hn : n ≤ 0) (e : String × String) (rest : List (String × String)) :
    ∀ fuel, processQueries executeQuery n fuel (e :: rest) = none := by
  have hz : n.toNat = 0 := by omega
  intro fuel
  induction fuel with
  | zero => rfl
  | succ fuel ih =>
    rw [processQueries]
    simp [hz, ih]

theorem setVal_isSome {α : Type} (l : List (String × α)) (k x : String) (v : α)
    (h : (lookupA l x).isSome) : (lookupA (setVal l k v) x).isSome := by
  by_cases hx : x = k
  · subst hx
    simp [lookupA_setVal_self]
  · rw [lookupA_setVal_ne l hx]
    exact h


theorem calcSweep_sublist (evalE : String → List (String × Int) → Int) :
    ∀ (pending : List Metric) (cv : List (String × Int)),
    (calcSweep evalE pending cv).1.Sublist pending := by
  intro pending
  induction pending with
  | nil => intro cv; simp [calcSweep]
  | cons m rest ih =>
    intro cv
    rw [calcSweep]
    by_cases h : (m.dependencies.all
        (fun d => (lookupA (calcSweep evalE rest cv).2.2 d).isSome)) = true
    · rw [if_pos h]
      exact (ih cv).trans (List.sublist_cons_self m rest)
    · rw [if_neg h]
      exact (ih cv).cons₂ m

theorem calcSweep_grows (evalE : String → List (String × Int) → Int) :
    ∀ (pending : List Metric) (cv : List (String × Int)) (k : String),
    (lookupA cv k).isSome → (lookupA (calcSweep evalE pending cv).2.2 k).isSome := by
  intro pending
  induction pending with
  | nil => intro cv k hk; simpa [calcSweep] using hk
  | cons m rest ih =>
    intro cv k hk
    rw [calcSweep]
    by_cases h : (m.dependencies.all
        (fun d => (lookupA (calcSweep evalE rest cv).2.2 d).isSome)) = true
    · rw [if_pos h]
      exact setVal_isSome _ _ _ _ (ih cv k hk)
    · rw [if_neg h]
      exact ih cv k hk

theorem calcSweep_new (evalE : String → List (String × Int) → Int) :
    ∀ (pending : List Metric) (cv : List (String × Int)) (k : String),
    (lookupA (calcSweep evalE pending cv).2.2 k).isSome →
    (lookupA cv k).isSome ∨ k ∈ pending.map Metric.id := by
  intro pending
  induction pending with
  | nil => intro cv k hk; left; simpa [calcSweep] using hk
  | cons m rest ih =>
    intro cv k hk
    rw [calcSweep] at hk
    by_cases h : (m.dependencies.all
        (fun d => (lookupA (calcSweep evalE rest cv).2.2 d).isSome)) = true
    · rw [if_pos h] at hk
      by_cases hkm : k = m.id
      · right
        simp [hkm]
      · rw [lookupA_setVal_ne _ hkm] at hk
        rcases ih cv k hk with h1 | h1
        · exact Or.inl h1
        · right
          simp [h1]
    · rw [if_neg h] at hk
      rcases ih cv k hk with h1 | h1
      · exact Or.inl h1
      · right
        simp [h1]

theorem calcSweep_preserve (evalE : String → List (String × Int) → Int) :
    ∀ (pending : List Metric) (cv : List (String × Int)),
    (∀ m, m ∈ pending → lookupA cv m.id = none) →
    ∀ k, (lookupA cv k).isSome →
    lookupA (calcSweep evalE pending cv).2.2 k = lookupA cv k := by
  intro pending
  induction pending with
  | nil => intro cv _ k _; simp [calcSweep]
  | cons m rest ih =>
    intro cv hfresh k hk
    rw [calcSweep]
    by_cases h : (m.dependencies.all
        (fun d => (lookupA (calcSweep evalE rest cv).2.2 d).isSome)) = true
    · rw [if_pos h]
      have hne : k ≠ m.id := by
        intro he
        rw [he] at hk
        rw [hfresh m (by simp)] at hk
        simp at hk
      rw [lookupA_setVal_ne _ hne]
      exact ih cv (fun m' hm' => hfresh m' (by simp [hm'])) k hk
    · rw [if_neg h]
      exact ih cv (fun m' hm' => hfresh m' (by simp [hm'])) k hk

theorem calcSweep_fresh (evalE : String → List (String × Int) → Int) :
    ∀ (pending : List Metric) (cv : List (String × Int)),
    (∀ m, m ∈ pending → lookupA cv m.id = none) →
    (pending.map Metric.id).Nodup →
    ∀ m', m' ∈ (calcSweep evalE pending cv).1 →
    lookupA (calcSweep evalE pending cv).2.2 m'.id = none := by
  intro pending
  induction pending with
  | nil => intro cv _ _ m' hm'; simp [calcSweep] at hm'
  | cons m rest ih =>
    intro cv hfresh hnodup m' hm'
    have hfresh' : ∀ m'', m'' ∈ rest → lookupA cv m''.id = none :=
      fun m'' hm'' => hfresh m'' (by simp [hm''])
    have hnodup' : (rest.map Metric.id).Nodup := by
      simp only [List.map_cons, List.nodup_cons] at hnodup
      exact hnodup.2
    have hmid : m.id ∉ rest.map Metric.id := by
      simp only [List.map_cons, List.nodup_cons] at hnodup
      exact hnodup.1
    have hmabs : lookupA (calcSweep evalE rest cv).2.2 m.id = none := by
      cases hc : lookupA (calcSweep evalE rest cv).2.2 m.id with
      | none => rfl
      | some v =>
        have hs : (lookupA (calcSweep evalE rest cv).2.2 m.id).isSome := by
          simp [hc]
        rcases calcSweep_new evalE rest cv m.id hs with h1 | h1
        · rw [hfresh m (by simp)] at h1
          simp at h1
        · exact absurd h1 hmid
    rw [calcSweep] at hm' ⊢
    by_cases h : (m.dependencies.all
        (fun d => (lookupA (calcSweep evalE rest cv).2.2 d).isSome)) = true
    · rw [if_pos h] at hm' ⊢
      have hm'rest : m' ∈ rest :=
        (calcSweep_sublist evalE rest cv).subset hm'
      have hne : m'.id ≠ m.id := by
        intro he
        exact hmid (he ▸ (List.mem_map_of_mem Metric.id hm'rest))
      rw [lookupA_setVal_ne _ hne]
      exact ih cv hfresh' hnodup' m' hm'
    · rw [if_neg h] at hm' ⊢
      rcases List.mem_cons.mp hm' with he | hm'rest
      · rw [he]
        exact hmabs
      · exact ih cv hfresh' hnodup' m' hm'rest

theorem calcSweep_progress (evalE : String → List (String × Int) → Int) :
    ∀ (pending : List Metric) (cv : List (String × Int)),
    (∃ m, m ∈ pending ∧ ∀ d, d ∈ m.dependencies → (lookupA cv d).isSome) →
    (calcSweep evalE pending cv).1.length < pending.length := by
  intro pending
  induction pending with
  | nil =>
    intro cv h
    rcases h with ⟨m, hm, _⟩
    simp at hm
  | cons m rest ih =>
    intro cv hwit
    rw [calcSweep]
    by_cases h : (m.dependencies.all
        (fun d => (lookupA (calcSweep evalE rest cv).2.2 d).isSome)) = true
    · rw [if_pos h]
      have hle := (calcSweep_sublist evalE rest cv).length_le
      simp only [List.length_cons]
      omega
    · rw [if_neg h]
      rcases hwit with ⟨m0, hm0, hdeps⟩
      rcases List.mem_cons.mp hm0 with he | hm0rest
      · exfalso
        apply h
        rw [List.all_eq_true]
        intro d hd
        subst he
        exact calcSweep_grows evalE rest cv d (hdeps d hd)
      · have hlt := ih cv ⟨m0, hm0rest, hdeps⟩
        simp only [List.length_cons]
        omega

theorem calcSweep_perm (evalE : String → List (String × Int) → Int) :
    ∀ (pending : List Metric) (cv : List (String × Int)),
    List.Perm (pending.map Metric.id)
      ((calcSweep evalE pending cv).1.map Metric.id ++
       (calcSweep evalE pending cv).2.1.map Prod.fst) := by
  intro pending
  induction pending with
  | nil => intro cv; simp [calcSweep]
  | cons m rest ih =>
    intro cv
    rw [calcSweep]
    by_cases h : (m.dependencies.all
        (fun d => (lookupA (calcSweep evalE rest cv).2.2 d).isSome)) = true
    · rw [if_pos h]
      simp only [List.map_cons, List.map_append, List.map_cons, List.map_nil]
      have h1 : List.Perm (m.id :: rest.map Metric.id)
          (m.id :: ((calcSweep evalE rest cv).1.map Metric.id ++
            (calcSweep evalE rest cv).2.1.map Prod.fst)) := (ih cv).cons m.id
      have h2 : List.Perm
          (m.id :: ((calcSweep evalE rest cv).1.map Metric.id ++
            (calcSweep evalE rest cv).2.1.map Prod.fst))
          (((calcSweep evalE rest cv).1.map Metric.id ++
            (calcSweep evalE rest cv).2.1.map Prod.fst) ++ [m.id]) :=
        (List.perm_append_singleton _ _).symm
      have h3 := h1.trans h2
      rw [List.append_assoc] at h3
      simpa using h3
    · rw [if_neg h]
      simp only [List.map_cons]
      exact (ih cv).cons m.id

/-- Every pair yielded by one sweep belongs to a pending metric whose
dependencies are all present afterwards, is stored in the updated value map,
and its value equals evaluating the metric's expression against the updated
map (for evaluators that read only the declared dependencies). -/
theorem calcSweep_sound (evalE : String → List (String × Int) → Int) :
    ∀ (pending : List Metric) (cv : List (String × Int)),
    (∀ m, m ∈ pending → lookupA cv m.id = none) →
    (pending.map Metric.id).Nodup →
    (∀ m, m ∈ pending → ∀ b b',
      (∀ d, d ∈ m.dependencies → lookupA b d = lookupA b' d) →
      evalE m.expression b = evalE m.expression b') →
    ∀ q, q ∈ (calcSweep evalE pending cv).2.1 →
    ∃ m, m ∈ pending ∧ m.id = q.1 ∧
      (∀ d, d ∈ m.dependencies →
        (lookupA (calcSweep evalE pending cv).2.2 d).isSome) ∧
      lookupA (calcSweep evalE pending cv).2.2 q.1 = some q.2 ∧
      q.2 = evalE m.expression (calcSweep evalE pending cv).2.2 := by
  intro pending
  induction pending with
  | nil => intro cv _ _ _ q hq; simp [calcSweep] at hq
  | cons m rest ih =>
    intro cv hfresh hnodup hext q hq
    have hfresh' : ∀ m'', m'' ∈ rest → lookupA cv m''.id = none :=
      fun m'' hm'' => hfresh m'' (by simp [hm''])
    have hnodup' : (rest.map Metric.id).Nodup := by
      simp only [List.map_cons, List.nodup_cons] at hnodup
      exact hnodup.2
    have hmid : m.id ∉ rest.map Metric.id := by
      simp only [List.map_cons, List.nodup_cons] at hnodup
      exact hnodup.1
    have hext' : ∀ m', m' ∈ rest → ∀ b b',
        (∀ d, d ∈ m'.dependencies → lookupA b d = lookupA b' d) →
        evalE m'.expression b = evalE m'.expression b' :=
      fun m' hm' => hext m' (by simp [hm'])
    have hmabs : lookupA (calcSweep evalE rest cv).2.2 m.id = none := by
      cases hc : lookupA (calcSweep evalE rest cv).2.2 m.id with
      | none => rfl
      | some v =>
        have hs : (lookupA (calcSweep evalE rest cv).2.2 m.id).isSome := by
          simp [hc]
        rcases calcSweep_new evalE rest cv m.id hs with h1 | h1
        · rw [hfresh m (by simp)] at h1
          simp at h1
        · exact absurd h1 hmid
    rw [calcSweep] at hq ⊢
    by_cases h : (m.dependencies.all
        (fun d => (lookupA (calcSweep evalE rest cv).2.2 d).isSome)) = true
    · rw [if_pos h] at hq ⊢
      have hdm : ∀ d, d ∈ m.dependencies →
          (lookupA (calcSweep evalE rest cv).2.2 d).isSome := by
        intro d hd
        exact List.all_eq_true.mp h d hd
      have hdne : ∀ d, d ∈ m.dependencies → d ≠ m.id := by
        intro d hd he
        have := hdm d hd
        rw [he, hmabs] at this
        simp at this
      have hagree : ∀ d, d ∈ m.dependencies →
          lookupA (calcSweep evalE rest cv).2.2 d =
          lookupA (setVal (calcSweep evalE rest cv).2.2 m.id
            (evalE m.expression (calcSweep evalE rest cv).2.2)) d := by
        intro d hd
        rw [lookupA_setVal_ne _ (hdne d hd)]
      rcases List.mem_append.mp hq with hq1 | hq1
      · rcases ih cv hfresh' hnodup' hext' q hq1 with
          ⟨m', hm', hid, hdeps, hstore, hval⟩
        refine ⟨m', by simp [hm'], hid, ?_, ?_, ?_⟩
        · intro d hd
          exact setVal_isSome _ _ _ _ (hdeps d hd)
        · have hq1ne : q.1 ≠ m.id := by
            intro he
            rw [he, hmabs] at hstore
            exact Option.noConfusion hstore
          rw [lookupA_setVal_ne _ hq1ne]
          exact hstore
        · have : evalE m'.expression (calcSweep evalE rest cv).2.2 =
              evalE m'.expression (setVal (calcSweep evalE rest cv).2.2 m.id
                (evalE m.expression (calcSweep evalE rest cv).2.2)) := by
            apply hext' m' hm'
            intro d hd
            have hds : (lookupA (calcSweep evalE rest cv).2.2 d).isSome :=
              hdeps d hd
            have hdne' : d ≠ m.id := by
              intro he
              rw [he, hmabs] at hds
              simp at hds
            rw [lookupA_setVal_ne _ hdne']
          rw [hval, this]
      · have hqeq : q = (m.id, evalE m.expression (calcSweep evalE rest cv).2.2) := by
          simpa using hq1
        refine ⟨m, by simp, by rw [hqeq], ?_, ?_, ?_⟩
        · intro d hd
          exact setVal_isSome _ _ _ _ (hdm d hd)
        · rw [hqeq]
          exact lookupA_setVal_self _ _ _
        · rw [hqeq]
          exact hext m (by simp) _ _ hagree
    · rw [if_neg h] at hq ⊢
      rcases ih cv hfresh' hnodup' hext' q hq with
        ⟨m', hm', hid, hdeps, hstore, hval⟩
      exact ⟨m', by simp [hm'], hid, hdeps, hstore, hval⟩

/-- A non-empty list of metrics has a member of minimal rank. -/
theorem exists_min_rank (rank : String → Nat) :
    ∀ (l : List Metric), l ≠ [] →
    ∃ m, m ∈ l ∧ ∀ m', m' ∈ l → rank m.id ≤ rank m'.id := by
  intro l
  induction l with
  | nil => intro h; exact absurd rfl h
  | cons m rest ih =>
    intro _
    cases rest with
    | nil =>
      exact ⟨m, by simp, by intro m' hm'; simp at hm'; rw [hm']⟩
    | cons m2 rest2 =>
      rcases ih (by simp) with ⟨m0, hm0, hmin⟩
      by_cases hc : rank m.id ≤ rank m0.id
      · refine ⟨m, by simp, ?_⟩
        intro m' hm'
        rcases List.mem_cons.mp hm' with he | hm'r
        · rw [he]
        · exact hc.trans (hmin m' hm'r)
      · refine ⟨m0, by simp [hm0], ?_⟩
        intro m' hm'
        rcases List.mem_cons.mp hm' with he | hm'r
        · rw [he]; omega
        · exact hmin m' hm'r

/-- If a sweep resolves nothing and metrics remain pending, the resolution
loop never terminates, whatever fuel it is given: the loop state is a
fixpoint. -/
theorem calcLoop_stuck (evalE : String → List (String × Int) → Int)
    (pending : List Metric) (cv : List (String × Int))
    (hne : pending ≠ [])
    (hfix : calcSweep evalE pending cv = (pending, [], cv)) :
    ∀ fuel, calcLoop evalE fuel pending cv = none := by
  intro fuel
  induction fuel with
  | zero =>
    cases pending with
    | nil => exact absurd rfl hne
    | cons m rest => rfl
  | succ fuel ih =>
    cases pending with
    | nil => exact absurd rfl hne
    | cons m rest =>
      rw [calcLoop, hfix]
      rw [ih]
      rfl

/-- Main resolver lemma: on a pending set whose identifiers are fresh and
distinct, whose evaluator reads only declared dependencies, and whose
dependency relation admits a rank function (every dependency is either
already resolved or a pending metric of strictly smaller rank), the loop
terminates within `pending.length` iterations, never overwrites an existing
value, yields a permutation of the pending identifiers, and each yielded
value is stored and equals the metric's expression evaluated against the
final value map. -/
theorem calcLoop_complete (evalE : String → List (String × Int) → Int)
    (rank : String → Nat) :
    ∀ (fuel : Nat) (pending : List Metric) (cv : List (String × Int)),
    pending.length ≤ fuel →
    (∀ m, m ∈ pending → lookupA cv m.id = none) →
    (pending.map Metric.id).Nodup →
    (∀ m, m ∈ pending → ∀ b b',
      (∀ d, d ∈ m.dependencies → lookupA b d = lookupA b' d) →
      evalE m.expression b = evalE m.expression b') →
    (∀ m, m ∈ pending → ∀ d, d ∈ m.dependencies →
      (lookupA cv d).isSome ∨
        (d ∈ pending.map Metric.id ∧ rank d < rank m.id)) →
    ∃ ys calcF, calcLoop evalE fuel pending cv = some (ys, calcF) ∧
      List.Perm (ys.map Prod.fst) (pending.map Metric.id) ∧
      (∀ k, (lookupA cv k).isSome → lookupA calcF k = lookupA cv k) ∧
      (∀ q, q ∈ ys → ∃ m, m ∈ pending ∧ m.id = q.1 ∧
        lookupA calcF q.1 = some q.2 ∧
        q.2 = evalE m.expression calcF) := by
  intro fuel
  induction fuel with
  | zero =>
    intro pending cv hlen hfresh hnodup hext hdeps
    have hpe : pending = [] := by
      cases pending with
      | nil => rfl
      | cons m rest => simp at hlen
    subst hpe
    refine ⟨[], cv, by rw [calcLoop], by simp, fun k hk => rfl, by simp⟩
  | succ fuel ih =>
    intro pending cv hlen hfresh hnodup hext hdeps
    cases hpending : pending with
    | nil =>
      refine ⟨[], cv, by rw [calcLoop], by simp, fun k hk => rfl, by simp⟩
    | cons m rest =>
      subst hpending
      have hne : (m :: rest) ≠ ([] : List Metric) := by simp
      rcases exists_min_rank rank (m :: rest) hne with ⟨m0, hm0, hmin⟩
      have hm0deps : ∀ d, d ∈ m0.dependencies → (lookupA cv d).isSome := by
        intro d hd
        rcases hdeps m0 hm0 d hd with h1 | ⟨h2, h3⟩
        · exact h1
        · exfalso
          rcases List.mem_map.mp h2 with ⟨m', hm', hid⟩
          have := hmin m' hm'
          rw [hid] at this
          omega
      have hprog := calcSweep_progress evalE (m :: rest) cv ⟨m0, hm0, hm0deps⟩
      have hsub := calcSweep_sublist evalE (m :: rest) cv
      have hsubkeys :
          ((calcSweep evalE (m :: rest) cv).1.map Metric.id).Sublist
            ((m :: rest).map Metric.id) := hsub.map Metric.id
      have hnodup2 : ((calcSweep evalE (m :: rest) cv).1.map Metric.id).Nodup :=
        hnodup.sublist hsubkeys
      have hfresh2 : ∀ m', m' ∈ (calcSweep evalE (m :: rest) cv).1 →
          lookupA (calcSweep evalE (m :: rest) cv).2.2 m'.id = none :=
        calcSweep_fresh evalE (m :: rest) cv hfresh hnodup
      have hext2 : ∀ m', m' ∈ (calcSweep evalE (m :: rest) cv).1 → ∀ b b',
          (∀ d, d ∈ m'.dependencies → lookupA b d = lookupA b' d) →
          evalE m'.expression b = evalE m'.expression b' :=
        fun m' hm' => hext m' (hsub.subset hm')
      have hsound := calcSweep_sound evalE (m :: rest) cv hfresh hnodup hext
      have hperm := calcSweep_perm evalE (m :: rest) cv
      have hdeps2 : ∀ m', m' ∈ (calcSweep evalE (m :: rest) cv).1 →
          ∀ d, d ∈ m'.dependencies →
          (lookupA (calcSweep evalE (m :: rest) cv).2.2 d).isSome ∨
            (d ∈ (calcSweep evalE (m :: rest) cv).1.map Metric.id ∧
              rank d < rank m'.id) := by
        intro m' hm' d hd
        rcases hdeps m' (hsub.subset hm') d hd with h1 | ⟨h2, h3⟩
        · exact Or.inl (calcSweep_grows evalE (m :: rest) cv d h1)
        · have hd2 : d ∈ (calcSweep evalE (m :: rest) cv).1.map Metric.id ∨
              d ∈ (calcSweep evalE (m :: rest) cv).2.1.map Prod.fst := by
            have := hperm.mem_iff.mp h2
            exact List.mem_append.mp this
          rcases hd2 with hd2 | hd2
          · exact Or.inr ⟨hd2, h3⟩
          · left
            rcases List.mem_map.mp hd2 with ⟨q, hq, hqd⟩
            rcases hsound q hq with ⟨_, _, _, _, hstore, _⟩
            rw [← hqd]
            simp [hstore]
      have hlen2 : (calcSweep evalE (m :: rest) cv).1.length ≤ fuel := by
        simp only [List.length_cons] at hlen hprog
        omega
      rcases ih (calcSweep evalE (m :: rest) cv).1
          (calcSweep evalE (m :: rest) cv).2.2 hlen2 hfresh2 hnodup2
          hext2 hdeps2 with ⟨ys', calcF, hrun, hperm', hpres', hsound'⟩
      refine ⟨(calcSweep evalE (m :: rest) cv).2.1 ++ ys', calcF, ?_, ?_, ?_, ?_⟩
      · rw [calcLoop, hrun]
        rfl
      · rw [List.map_append]
        have hstep : List.Perm
            ((calcSweep evalE (m :: rest) cv).2.1.map Prod.fst ++
              ys'.map Prod.fst)
            ((calcSweep evalE (m :: rest) cv).2.1.map Prod.fst ++
              (calcSweep evalE (m :: rest) cv).1.map Metric.id) :=
          hperm'.append_left _
        refine hstep.trans ?_
        refine (List.perm_append_comm).trans ?_
        exact hperm.symm
      · intro k hk
        have h1 := calcSweep_preserve evalE (m :: rest) cv hfresh k hk
        have h2 : (lookupA (calcSweep evalE (m :: rest) cv).2.2 k).isSome := by
          rw [h1]
          exact hk
        rw [hpres' k h2, h1]
      · intro q hq
        rcases List.mem_append.mp hq with hq1 | hq1
        · rcases hsound q hq1 with ⟨m', hm', hid, hdeps3, hstore, hval⟩
          refine ⟨m', hm', hid, ?_, ?_⟩
          · rw [hpres' q.1 (by simp [hstore])]
            exact hstore
          · rw [hval]
            apply hext m' hm'
            intro d hd
            exact (hpres' d (hdeps3 d hd)).symm
        · rcases hsound' q hq1 with ⟨m', hm', hid, hstore, hval⟩
          exact ⟨m', hsub.subset hm', hid, hstore, hval⟩

/-- Claim C1: the spec requires that a pending-metric set whose dependencies
can never all be satisfied makes the resolution loop terminate with an
UnresolvableDependency error; the code has no such detection.  At the concrete
failing inputs below (an unknown dependency identifier, and a two-metric
cycle) every sweep of the loop resolves nothing, so `executeDashboard` does
not terminate for any fuel bound, in either mode: the `while` loop runs
forever instead of failing. -/
theorem c1_unresolvable_dependencies_loop_forever
    (executeQuery : String → Option Int)
    (evalE : String → List (String × Int) → Int) (n : Int) (u : Bool)
    (qfuel rfuel : Nat) :
    executeDashboard executeQuery evalE n qfuel rfuel cfgUnknownDep u = none ∧
    executeDashboard executeQuery evalE n qfuel rfuel cfgCycle u = none := by
  constructor
  · have hstuck := calcLoop_stuck evalE [⟨"m", "x + 1", ["x"]⟩] [] (by simp)
      (by simp [calcSweep, lookupA])
    simp [executeDashboard, processPanelResults, runPanel, relevantQueries,
      depStep, jsTruthy, lookupA, processCalculations, drainQueries, initState,
      cfgUnknownDep, processQueries, hstuck]
  · have hstuck := calcLoop_stuck evalE
      [⟨"m1", "x + 1", ["m2"]⟩, ⟨"m2", "x + 1", ["m1"]⟩] [] (by simp)
      (by simp [calcSweep, lookupA])
    simp [executeDashboard, processPanelResults, runPanel, relevantQueries,
      depStep, jsTruthy, lookupA, processCalculations, drainQueries, initState,
      cfgCycle, processQueries, hstuck]

/-- Claim C4: on a pending-metric set whose identifiers are distinct and
unassigned, whose dependency relation is acyclic (witnessed by a rank
function: every dependency is either already present in the resolved values
or names a pending metric of strictly smaller rank) and whose evaluator reads
only the declared dependencies, the resolver terminates within
`pending.length` sweeps, yields each metric's identifier exactly once, and
every yielded value is stored and equals the metric's expression evaluated
against the final bindings — whatever the declaration order. -/
theorem c4_acyclic_resolution_complete
    (evalE : String → List (String × Int) → Int) (rank : String → Nat)
    (pending : List Metric) (cv : List (String × Int))
    (hfresh : ∀ m, m ∈ pending → lookupA cv m.id = none)
    (hnodup : (pending.map Metric.id).Nodup)
    (hext : ∀ m, m ∈ pending → ∀ b b',
      (∀ d, d ∈ m.dependencies → lookupA b d = lookupA b' d) →
      evalE m.expression b = evalE m.expression b')
    (hdeps : ∀ m, m ∈ pending → ∀ d, d ∈ m.dependencies →
      (lookupA cv d).isSome ∨
        (d ∈ pending.map Metric.id ∧ rank d < rank m.id)) :
    ∃ ys calcF,
      calcLoop evalE pending.length pending cv = some (ys, calcF) ∧
      (∀ m, m ∈ pending → (ys.map Prod.fst).count m.id = 1) ∧
      (∀ q, q ∈ ys → ∃ m, m ∈ pending ∧ m.id = q.1 ∧
        lookupA calcF q.1 = some q.2 ∧
        q.2 = evalE m.expression calcF) := by
  rcases calcLoop_complete evalE rank pending.length pending cv le_rfl
    hfresh hnodup hext hdeps with ⟨ys, calcF, hrun, hperm, _, hsound⟩
  refine ⟨ys, calcF, hrun, ?_, hsound⟩
  intro m hm
  rw [hperm.count_eq]
  exact List.count_eq_one_of_mem hnodup (List.mem_map_of_mem Metric.id hm)

/-- Witness for C4 at a concrete input with a forward reference: metric "y"
(declared first) depends on metric "x" (declared second), which depends on
the already-resolved queries "a" and "b". -/
theorem c4_witness :
    ∃ ys calcF,
      calcLoop evalX metricsFwd.length metricsFwd [("a", 1), ("b", 2)] =
        some (ys, calcF) ∧
      (∀ m, m ∈ metricsFwd → (ys.map Prod.fst).count m.id = 1) ∧
      (∀ q, q ∈ ys → ∃ m, m ∈ metricsFwd ∧ m.id = q.1 ∧
        lookupA calcF q.1 = some q.2 ∧
        q.2 = evalX m.expression calcF) := by
  exact c4_acyclic_resolution_complete evalX
    (fun s => if s = "y" then 2 else if s = "x" then 1 else 0)
    metricsFwd [("a", 1), ("b", 2)]
    (by decide)
    (by decide)
    (by
      intro m hm b b' hagree
      rcases List.mem_cons.mp hm with he | hm2
      · have hx : lookupA b "x" = lookupA b' "x" :=
          hagree "x" (by rw [he]; decide)
        rw [he]
        simp [evalX, hx]
      · rcases List.mem_cons.mp hm2 with he | hm3
        · have ha : lookupA b "a" = lookupA b' "a" :=
            hagree "a" (by rw [he]; decide)
          have hb : lookupA b "b" = lookupA b' "b" :=
            hagree "b" (by rw [he]; decide)
          rw [he]
          simp [evalX, ha, hb]
        · simp at hm3)
    (by decide)

/-- Claim C9 counterexample: with both queries dispatched in one batch
(ceiling 20 ≥ 2), the first input query completes last (duration 10 vs 1),
so completion order is [q2, q1]; yet the batcher yields [q1, q2] — the input
order — because `Promise.allSettled` reports results positionally.  The claim
that results surface in completion order is false. -/
theorem c9_counterexample :
    processQueries execDur 20 2 [("q1", "sq1"), ("q2", "sq2")] =
      some [("q1", 1), ("q2", 2)] ∧
    completionOrder durEx [("q1", "sq1"), ("q2", "sq2")] =
      [("q2", "sq2"), ("q1", "sq1")] ∧
    ([("q1", (1 : Int)), ("q2", 2)]).map Prod.fst ≠
      (completionOrder durEx [("q1", "sq1"), ("q2", "sq2")]).map Prod.fst := by
  refine ⟨by decide, by decide, by decide⟩

/-- Claim C9 amended: within each batch (and hence across the whole stream)
the (identifier, value) results are yielded in the order the entries appear
in the input QueryMap — the order of `Promise.allSettled`'s result array —
regardless of completion order; failed entries are skipped. -/
theorem c9_amended_input_order (executeQuery : String → Option Int)
    (n : Int) (hn : 1 ≤ n) (es : List (String × String)) :
    processQueries executeQuery n es.length es =
      some (es.filterMap (fun p => (executeQuery p.2).map (fun v => (p.1, v)))) :=
  processQueries_complete executeQuery n hn es.length es le_rfl

/-- Witness for the amended C9 at a concrete input. -/
theorem c9_witness :
    processQueries execDur 20
      ([("q1", "sq1"), ("q2", "sq2")] : List (String × String)).length
      [("q1", "sq1"), ("q2", "sq2")] =
      some (([("q1", "sq1"), ("q2", "sq2")] : List (String × String)).filterMap
        (fun p => (execDur p.2).map (fun v => (p.1, v)))) :=
  c9_amended_input_order execDur 20 (by norm_num) [("q1", "sq1"), ("q2", "sq2")]

/-- Claim C10 counterexample: with `maxConcurrentQueries = 0` and the
non-empty QueryMap of `cfgNoPanels`, `executeDashboard` still terminates,
because no panel ever invokes the batching loop.  The claim's conclusion
"executeDashboard never terminates" does not hold for every non-empty
QueryMap. -/
theorem c10_counterexample :
    executeDashboard execG evalX 0 5 5 cfgNoPanels false =
      some ([], initState) := by
  decide

/-- Claim C10 amended: with `maxConcurrentQueries ≤ 0`, every batch spliced
off a non-empty entry list is empty and leaves the list unchanged, so the
batching loop on a non-empty entry list never terminates for any fuel, and
`executeDashboard` never terminates whenever some first panel has a non-empty
relevant query set; batching of a non-empty list terminates exactly when the
ceiling is at least 1. -/
theorem c10_amended (executeQuery : String → Option Int)
    (evalE : String → List (String × Int) → Int) (n : Int) (hn : n ≤ 0) :
    (∀ (e : String × String) (rest : List (String × String)) (fuel : Nat),
      (e :: rest).take n.toNat = ([] : List (String × String)) ∧
      (e :: rest).drop n.toNat = e :: rest ∧
      processQueries executeQuery n fuel (e :: rest) = none) ∧
    (∀ (cfg : DashboardConfig) (p : Panel) (ps : List Panel)
      (e : String × String) (rest : List (String × String)) (u : Bool)
      (qfuel rfuel : Nat),
      cfg.panels = p :: ps →
      relevantQueries cfg.queries p = e :: rest →
      executeDashboard executeQuery evalE n qfuel rfuel cfg u = none) ∧
    (∀ (n' : Int), 1 ≤ n' → ∀ es : List (String × String),
      processQueries executeQuery n' es.length es =
        some (es.filterMap (fun p => (executeQuery p.2).map (fun v => (p.1, v))))) := by
  have hz : n.toNat = 0 := by omega
  refine ⟨?_, ?_, ?_⟩
  · intro e rest fuel
    exact ⟨by rw [hz]; rfl, by rw [hz]; rfl,
      processQueries_stuck executeQuery n hn e rest fuel⟩
  · intro cfg p ps e rest u qfuel rfuel hpanels hrq
    rw [executeDashboard, hpanels, processPanelResults]
    have hcache : (if u then lookupA initState.cache p.title else none) =
        (none : Option PanelResult) := by
      cases u <;> simp [initState, lookupA]
    rw [hcache]
    rw [runPanel, hrq, processQueries_stuck executeQuery n hn e rest qfuel]
  · intro n' hn' es
    exact processQueries_complete executeQuery n' hn' es.length es le_rfl

/-- Witness for the amended C10 at concrete inputs: batch splicing with
ceiling 0 is stuck on a one-entry list, `executeDashboard` on a panel that
needs the query "a" never terminates, and ceiling 1 drains the same list. -/
theorem c10_witness :
    processQueries execG 0 5 [("a", "qa")] = none ∧
    executeDashboard execG evalX 0 5 5 cfgShared false = none ∧
    processQueries execG 1
      ([("a", "qa")] : List (String × String)).length [("a", "qa")] =
      some (([("a", "qa")] : List (String × String)).filterMap
        (fun p => (execG p.2).map (fun v => (p.1, v)))) := by
  obtain ⟨h1, h2, h3⟩ := c10_amended execG evalX 0 (by norm_num)
  refine ⟨(h1 ("a", "qa") [] 5).2.2, ?_, h3 1 (by norm_num) [("a", "qa")]⟩
  exact h2 cfgShared ⟨"P1", [⟨"m1", "a + 1", ["a"]⟩]⟩
    [⟨"P2", [⟨"m2", "a + 2", ["a"]⟩]⟩] ("a", "qa") [] false 5 5 rfl (by decide)

/-- In a list with distinct keys, a key determines its value. -/
theorem nodupKeys_eq {α : Type} {es : List (String × α)}
    (hkeys : (es.map Prod.fst).Nodup) {k : String} {a b : α}
    (ha : (k, a) ∈ es) (hb : (k, b) ∈ es) : a = b := by
  induction es with
  | nil => simp at ha
  | cons e rest ih =>
    simp only [List.map_cons, List.nodup_cons] at hkeys
    rcases List.mem_cons.mp ha with hea | ha2
    · rcases List.mem_cons.mp hb with heb | hb2
      · have h2 : (k, a) = (k, b) := hea.trans heb.symm
        exact (Prod.ext_iff.mp h2).2
      · exfalso
        apply hkeys.1
        rw [← hea]
        show k ∈ List.map Prod.fst rest
        exact List.mem_map_of_mem Prod.fst hb2
    · rcases List.mem_cons.mp hb with heb | hb2
      · exfalso
        apply hkeys.1
        rw [← heb]
        show k ∈ List.map Prod.fst rest
        exact List.mem_map_of_mem Prod.fst ha2
      · exact ih hkeys.2 ha2 hb2

/-- Whenever the batching loop returns at all, its output is the input entry
list filtered by successful execution, in input order. -/
theorem processQueries_some_eq (executeQuery : String → Option Int)
    (n : Int) :
    ∀ (fuel : Nat) (es : List (String × String)) out,
    processQueries executeQuery n fuel es = some out →
    out = es.filterMap (fun p => (executeQuery p.2).map (fun v => (p.1, v))) := by
  intro fuel
  induction fuel with
  | zero =>
    intro es out h
    cases es with
    | nil =>
      rw [processQueries] at h
      simp at h
      rw [h]
      rfl
    | cons e rest => exact Option.noConfusion h
  | succ fuel ih =>
    intro es out h
    cases es with
    | nil =>
      rw [processQueries] at h
      simp at h
      rw [h]
      rfl
    | cons e rest =>
      rw [processQueries] at h
      cases hrec : processQueries executeQuery n fuel ((e :: rest).drop n.toNat) with
      | none =>
        rw [hrec] at h
        exact Option.noConfusion h
      | some tail =>
        rw [hrec] at h
        simp only [Option.map_some', Option.some.injEq] at h
        rw [← h, ih _ tail hrec, ← List.filterMap_append,
          List.take_append_drop]

/-- Draining query results into the value map does not touch keys that are
not among the drained identifiers. -/
theorem drainQueries_not_mem (qres : List (String × Int)) :
    ∀ (cv : List (String × Int)) (k : String), k ∉ qres.map Prod.fst →
    lookupA (drainQueries cv qres) k = lookupA cv k := by
  induction qres with
  | nil => intro cv k _; rfl
  | cons q rest ih =>
    intro cv k hk
    simp only [List.map_cons, List.mem_cons] at hk
    push_neg at hk
    have step : drainQueries cv (q :: rest) =
        drainQueries (setVal cv q.1 q.2) rest := rfl
    rw [step, ih _ k hk.2, lookupA_setVal_ne _ hk.1]

/-- Every identifier the resolution loop yields is the identifier of one of
the pending metrics. -/
theorem calcLoop_ids (evalE : String → List (String × Int) → Int) :
    ∀ (fuel : Nat) (pending : List Metric) (cv : List (String × Int)) ys calcF,
    calcLoop evalE fuel pending cv = some (ys, calcF) →
    ∀ q, q ∈ ys → q.1 ∈ pending.map Metric.id := by
  intro fuel
  induction fuel with
  | zero =>
    intro pending cv ys calcF h q hq
    cases pending with
    | nil =>
      rw [calcLoop] at h
      simp at h
      rw [h.1] at hq
      simp at hq
    | cons m rest => exact Option.noConfusion h
  | succ fuel ih =>
    intro pending cv ys calcF h q hq
    cases pending with
    | nil =>
      rw [calcLoop] at h
      simp at h
      rw [h.1] at hq
      simp at hq
    | cons m rest =>
      rw [calcLoop] at h
      cases hrec : calcLoop evalE fuel (calcSweep evalE (m :: rest) cv).1
          (calcSweep evalE (m :: rest) cv).2.2 with
      | none =>
        rw [hrec] at h
        exact Option.noConfusion h
      | some r =>
        rw [hrec] at h
        simp only [Option.map_some', Option.some.injEq] at h
        have hys : ys = (calcSweep evalE (m :: rest) cv).2.1 ++ r.1 :=
          (congrArg Prod.fst h).symm
        rw [hys] at hq
        rcases List.mem_append.mp hq with hq1 | hq1
        · have hperm := calcSweep_perm evalE (m :: rest) cv
          apply hperm.mem_iff.mpr
          apply List.mem_append.mpr
          right
          exact List.mem_map_of_mem Prod.fst hq1
        · have := ih (calcSweep evalE (m :: rest) cv).1
            (calcSweep evalE (m :: rest) cv).2.2 r.1 r.2
            (by rw [hrec]) q hq1
          exact ((calcSweep_sublist evalE (m :: rest) cv).map Metric.id).subset this

/-- Any key present in the resolution loop's final value map was either
present initially or is one of the pending metric identifiers. -/
theorem calcLoop_new (evalE : String → List (String × Int) → Int) :
    ∀ (fuel : Nat) (pending : List Metric) (cv : List (String × Int)) ys calcF,
    calcLoop evalE fuel pending cv = some (ys, calcF) →
    ∀ k, (lookupA calcF k).isSome →
    (lookupA cv k).isSome ∨ k ∈ pending.map Metric.id := by
  intro fuel
  induction fuel with
  | zero =>
    intro pending cv ys calcF h k hk
    cases pending with
    | nil =>
      rw [calcLoop] at h
      simp at h
      rw [← h.2] at hk
      exact Or.inl hk
    | cons m rest => exact Option.noConfusion h
  | succ fuel ih =>
    intro pending cv ys calcF h k hk
    cases pending with
    | nil =>
      rw [calcLoop] at h
      simp at h
      rw [← h.2] at hk
      exact Or.inl hk
    | cons m rest =>
      rw [calcLoop] at h
      cases hrec : calcLoop evalE fuel (calcSweep evalE (m :: rest) cv).1
          (calcSweep evalE (m :: rest) cv).2.2 with
      | none =>
        rw [hrec] at h
        exact Option.noConfusion h
      | some r =>
        rw [hrec] at h
        simp only [Option.map_some', Option.some.injEq] at h
        have hcf : calcF = r.2 := (congrArg Prod.snd h).symm
        rcases ih (calcSweep evalE (m :: rest) cv).1
            (calcSweep evalE (m :: rest) cv).2.2 r.1 r.2 (by rw [hrec]) k
            (hcf ▸ hk) with h1 | h1
        · rcases calcSweep_new evalE (m :: rest) cv k h1 with h2 | h2
          · exact Or.inl h2
          · exact Or.inr h2
        · right
          exact ((calcSweep_sublist evalE (m :: rest) cv).map Metric.id).subset h1

/-- Under the accumulator invariant (entries carry their non-empty query
text), JS truthiness of `acc[d]` is exactly key membership. -/
theorem jsTruthy_iff_mem (queries acc : List (String × String))
    (hinv : ∀ e, e ∈ acc → lookupA queries e.1 = some e.2 ∧ e.2 ≠ "")
    (d : String) :
    jsTruthy (lookupA acc d) = true ↔ d ∈ acc.map Prod.fst := by
  cases h : lookupA acc d with
  | none =>
    have hmem := (lookupA_eq_none_iff acc d).mp h
    constructor
    · intro hf
      exact absurd hf (by simp [jsTruthy])
    · intro hm
      exact absurd hm hmem
  | some v =>
    have hmem := lookupA_mem h
    have hne := (hinv (d, v) hmem).2
    constructor
    · intro _
      exact List.mem_map.mpr ⟨(d, v), hmem, rfl⟩
    · intro _
      simp [jsTruthy, hne]

theorem depStep_inv (queries acc : List (String × String)) (d : String)
    (hinv : ∀ e, e ∈ acc → lookupA queries e.1 = some e.2 ∧ e.2 ≠ "") :
    ∀ e, e ∈ depStep queries acc d →
    lookupA queries e.1 = some e.2 ∧ e.2 ≠ "" := by
  intro e he
  rw [depStep] at he
  by_cases hc : (jsTruthy (lookupA queries d) && !jsTruthy (lookupA acc d)) = true
  · rw [if_pos hc] at he
    rw [Bool.and_eq_true] at hc
    rcases List.mem_append.mp he with he1 | he1
    · exact hinv e he1
    · have he2 : e = (d, (lookupA queries d).getD "") := by simpa using he1
      cases hq : lookupA queries d with
      | none =>
        rw [hq] at hc
        exact absurd hc.1 (by simp [jsTruthy])
      | some t =>
        have ht : t ≠ "" := by
          have := hc.1
          rw [hq] at this
          simpa [jsTruthy] using this
        rw [he2, hq]
        exact ⟨by simp, by simpa using ht⟩
  · rw [if_neg hc] at he
    exact hinv e he

theorem depStep_mem (queries acc : List (String × String)) (d : String)
    (hinv : ∀ e, e ∈ acc → lookupA queries e.1 = some e.2 ∧ e.2 ≠ "")
    (k : String) :
    k ∈ (depStep queries acc d).map Prod.fst ↔
    k ∈ acc.map Prod.fst ∨
      (k = d ∧ jsTruthy (lookupA queries k) = true) := by
  rw [depStep]
  by_cases hc : (jsTruthy (lookupA queries d) && !jsTruthy (lookupA acc d)) = true
  · rw [if_pos hc]
    rw [Bool.and_eq_true] at hc
    simp only [List.map_append, List.mem_append]
    constructor
    · intro h
      rcases h with h | h
      · exact Or.inl h
      · have hkd : k = d := by simpa using h
        exact Or.inr ⟨hkd, hkd ▸ hc.1⟩
    · intro h
      rcases h with h | ⟨he, _⟩
      · exact Or.inl h
      · right
        simp [he]
  · rw [if_neg hc]
    constructor
    · intro h
      exact Or.inl h
    · intro h
      rcases h with h | ⟨he, ht⟩
      · exact h
      · subst he
        have hB : jsTruthy (lookupA acc k) = true := by
          cases hbv : jsTruthy (lookupA acc k) with
          | true => rfl
          | false =>
            exfalso
            apply hc
            rw [Bool.and_eq_true]
            exact ⟨ht, by rw [hbv]; rfl⟩
        exact (jsTruthy_iff_mem queries acc hinv k).mp hB

theorem depStep_nodup (queries acc : List (String × String)) (d : String)
    (hinv : ∀ e, e ∈ acc → lookupA queries e.1 = some e.2 ∧ e.2 ≠ "")
    (hnd : (acc.map Prod.fst).Nodup) :
    ((depStep queries acc d).map Prod.fst).Nodup := by
  rw [depStep]
  by_cases hc : (jsTruthy (lookupA queries d) && !jsTruthy (lookupA acc d)) = true
  · rw [if_pos hc]
    rw [Bool.and_eq_true] at hc
    have hdnew : d ∉ acc.map Prod.fst := by
      intro hmem
      have := (jsTruthy_iff_mem queries acc hinv d).mpr hmem
      rw [this] at hc
      simp at hc
    simp only [List.map_append]
    rw [List.nodup_append]
    refine ⟨hnd, by simp, ?_⟩
    intro a ha hb
    have : a = d := by simpa using hb
    rw [this] at ha
    exact hdnew ha
  · rw [if_neg hc]
    exact hnd

theorem depFold_inv (queries : List (String × String)) :
    ∀ (ds : List String) (acc : List (String × String)),
    (∀ e, e ∈ acc → lookupA queries e.1 = some e.2 ∧ e.2 ≠ "") →
    ∀ e, e ∈ ds.foldl (depStep queries) acc →
    lookupA queries e.1 = some e.2 ∧ e.2 ≠ "" := by
  intro ds
  induction ds with
  | nil => intro acc hinv e he; exact hinv e he
  | cons d rest ih =>
    intro acc hinv e he
    exact ih (depStep queries acc d) (depStep_inv queries acc d hinv) e he

theorem depFold_mem (queries : List (String × String)) :
    ∀ (ds : List String) (acc : List (String × String)),
    (∀ e, e ∈ acc → lookupA queries e.1 = some e.2 ∧ e.2 ≠ "") →
    ∀ k, k ∈ (ds.foldl (depStep queries) acc).map Prod.fst ↔
      k ∈ acc.map Prod.fst ∨
        (k ∈ ds ∧ jsTruthy (lookupA queries k) = true) := by
  intro ds
  induction ds with
  | nil =>
    intro acc _ k
    simp
  | cons d rest ih =>
    intro acc hinv k
    have hstep := ih (depStep queries acc d) (depStep_inv queries acc d hinv) k
    rw [List.foldl_cons, hstep, depStep_mem queries acc d hinv k]
    constructor
    · intro h
      rcases h with (h | ⟨he, ht⟩) | ⟨hr, ht⟩
      · exact Or.inl h
      · exact Or.inr ⟨by simp [he], ht⟩
      · exact Or.inr ⟨by simp [hr], ht⟩
    · intro h
      rcases h with h | ⟨hm, ht⟩
      · exact Or.inl (Or.inl h)
      · rcases List.mem_cons.mp hm with he | hr
        · exact Or.inl (Or.inr ⟨he, ht⟩)
        · exact Or.inr ⟨hr, ht⟩

theorem depFold_nodup (queries : List (String × String)) :
    ∀ (ds : List String) (acc : List (String × String)),
    (∀ e, e ∈ acc → lookupA queries e.1 = some e.2 ∧ e.2 ≠ "") →
    (acc.map Prod.fst).Nodup →
    ((ds.foldl (depStep queries) acc).map Prod.fst).Nodup := by
  intro ds
  induction ds with
  | nil => intro acc _ hnd; exact hnd
  | cons d rest ih =>
    intro acc hinv hnd
    exact ih (depStep queries acc d)
      (depStep_inv queries acc d hinv)
      (depStep_nodup queries acc d hinv hnd)

theorem metricsFold_inv (queries : List (String × String)) :
    ∀ (ms : List Metric) (acc : List (String × String)),
    (∀ e, e ∈ acc → lookupA queries e.1 = some e.2 ∧ e.2 ≠ "") →
    ∀ e, e ∈ ms.foldl (fun acc m => m.dependencies.foldl (depStep queries) acc) acc →
    lookupA queries e.1 = some e.2 ∧ e.2 ≠ "" := by
  intro ms
  induction ms with
  | nil => intro acc hinv e he; exact hinv e he
  | cons m rest ih =>
    intro acc hinv e he
    exact ih _ (depFold_inv queries m.dependencies acc hinv) e he

theorem metricsFold_mem (queries : List (String × String)) :
    ∀ (ms : List Metric) (acc : List (String × String)),
    (∀ e, e ∈ acc → lookupA queries e.1 = some e.2 ∧ e.2 ≠ "") →
    ∀ k, k ∈ (ms.foldl (fun acc m => m.dependencies.foldl (depStep queries) acc)
        acc).map Prod.fst ↔
      k ∈ acc.map Prod.fst ∨
        ((∃ m, m ∈ ms ∧ k ∈ m.dependencies) ∧
          jsTruthy (lookupA queries k) = true) := by
  intro ms
  induction ms with
  | nil =>
    intro acc _ k
    simp
  | cons m rest ih =>
    intro acc hinv k
    have hstep := ih (m.dependencies.foldl (depStep queries) acc)
      (depFold_inv queries m.dependencies acc hinv) k
    rw [List.foldl_cons, hstep, depFold_mem queries m.dependencies acc hinv k]
    constructor
    · intro h
      rcases h with (h | ⟨hd, ht⟩) | ⟨⟨m', hm', hd⟩, ht⟩
      · exact Or.inl h
      · exact Or.inr ⟨⟨m, by simp, hd⟩, ht⟩
      · exact Or.inr ⟨⟨m', by simp [hm'], hd⟩, ht⟩
    · intro h
      rcases h with h | ⟨⟨m', hm', hd⟩, ht⟩
      · exact Or.inl (Or.inl h)
      · rcases List.mem_cons.mp hm' with he | hr
        · exact Or.inl (Or.inr ⟨he ▸ hd, ht⟩)
        · exact Or.inr ⟨⟨m', hr, hd⟩, ht⟩

theorem metricsFold_nodup (queries : List (String × String)) :
    ∀ (ms : List Metric) (acc : List (String × String)),
    (∀ e, e ∈ acc → lookupA queries e.1 = some e.2 ∧ e.2 ≠ "") →
    (acc.map Prod.fst).Nodup →
    ((ms.foldl (fun acc m => m.dependencies.foldl (depStep queries) acc)
        acc).map Prod.fst).Nodup := by
  intro ms
  induction ms with
  | nil => intro acc _ hnd; exact hnd
  | cons m rest ih =>
    intro acc hinv hnd
    exact ih _ (depFold_inv queries m.dependencies acc hinv)
      (depFold_nodup queries m.dependencies acc hinv hnd)

/-- Every entry of a panel's relevant query set carries the (non-empty) query
text the QueryMap assigns to its key. -/
theorem relevantQueries_val (queries : List (String × String)) (p : Panel) :
    ∀ e, e ∈ relevantQueries queries p →
    lookupA queries e.1 = some e.2 ∧ e.2 ≠ "" := by
  intro e he
  exact metricsFold_inv queries p.metrics [] (by simp) e he

/-- The keys of a panel's relevant query set are exactly the dependency
identifiers of its metrics that name a (truthy) query — independent of the
shared resolved values. -/
theorem relevantQueries_mem (queries : List (String × String)) (p : Panel)
    (k : String) :
    k ∈ (relevantQueries queries p).map Prod.fst ↔
    (∃ m, m ∈ p.metrics ∧ k ∈ m.dependencies) ∧
      jsTruthy (lookupA queries k) = true := by
  rw [relevantQueries]
  rw [metricsFold_mem queries p.metrics [] (by simp) k]
  simp

/-- The keys of a panel's relevant query set are distinct: a dependency shared
by several metrics of the panel is queried once for that panel. -/
theorem relevantQueries_nodup (queries : List (String × String)) (p : Panel) :
    ((relevantQueries queries p).map Prod.fst).Nodup := by
  rw [relevantQueries]
  exact metricsFold_nodup queries p.metrics [] (by simp) (by simp)

/-- Claim C2 counterexample: on the spec's end-to-end example the panel "P"
produces exactly the results list [("sum", 3)].  The query results
("a", 1) and ("b", 2) are not in the results list, contrary to the claim:
the drain loop of `processCalculations` assigns query values into the shared
map without yielding them. -/
theorem c2_counterexample :
    (executeDashboard execAB evalX 20 5 5 cfgAB false).map Prod.fst =
      some [⟨"P", [("sum", 3)]⟩] ∧
    ("a", (1 : Int)) ∉ ([("sum", (3 : Int))] : List (String × Int)) ∧
    ("b", (2 : Int)) ∉ ([("sum", (3 : Int))] : List (String × Int)) := by
  refine ⟨by decide, by decide, by decide⟩

/-- Claim C2 amended: on the spec's end-to-end example, `executeDashboard`
produces for panel "P" the results list [("sum", 3)] — the metric only —
while the query values a = 1 and b = 2 are recorded in the shared
ResolvedValues (together with sum = 3) but are not part of the panel's
results list. -/
theorem c2_amended_end_to_end :
    (executeDashboard execAB evalX 20 5 5 cfgAB false).map
      (fun r => (r.1, r.2.calcVals)) =
      some ([⟨"P", [("sum", 3)]⟩], [("a", 1), ("b", 2), ("sum", 3)]) := by
  decide

/-- Claim C3 counterexample: the two panels of `cfgShared` share the query
dependency "a"; the second panel's batcher input is not filtered against the
already-populated ResolvedValues, so the query text "qa" is executed once per
panel and the identifier "a" is assigned twice within one execution. -/
theorem c3_counterexample :
    (executeDashboard execG evalX 20 5 5 cfgShared false).map
      (fun r => ((r.2.assigns.map Prod.fst).count "a", r.2.queryCalls)) =
      some (2, ["qa", "qa"]) := by
  decide

/-- Claim C3 amended: for every panel, the batcher is invoked exactly over
the panel's dependency identifiers that name a (non-empty) QueryMap entry,
deduplicated within the panel and paired with their query texts — but not
filtered against the shared ResolvedValues, so identifiers shared across
panels are re-queried and re-assigned once per panel. -/
theorem c3_amended_batcher_input (queries : List (String × String)) (p : Panel) :
    ((relevantQueries queries p).map Prod.fst).Nodup ∧
    (∀ k, k ∈ (relevantQueries queries p).map Prod.fst ↔
      (∃ m, m ∈ p.metrics ∧ k ∈ m.dependencies) ∧
        jsTruthy (lookupA queries k) = true) ∧
    (∀ e, e ∈ relevantQueries queries p → lookupA queries e.1 = some e.2) :=
  ⟨relevantQueries_nodup queries p,
   relevantQueries_mem queries p,
   fun e he => (relevantQueries_val queries p e he).1⟩

/-- Inversion of a successful (non-cached) panel step: the produced result
carries the panel title and the resolver's yields, the cache gains the
result under the title, and the traces extend by the relevant queries and
the assignments. -/
theorem runPanel_state (executeQuery : String → Option Int)
    (evalE : String → List (String × Int) → Int) (maxN : Int)
    (qfuel rfuel : Nat) (queries : List (String × String)) (p : Panel)
    (st : ExecState) (r : PanelResult) (st' : ExecState)
    (h : runPanel executeQuery evalE maxN qfuel rfuel queries p st =
      some (r, st')) :
    r.panel = p.title ∧
    st'.cache = setVal st.cache p.title r ∧
    st'.queryCalls = st.queryCalls ++ (relevantQueries queries p).map Prod.snd ∧
    ∃ qres ys calc2,
      processQueries executeQuery maxN qfuel (relevantQueries queries p) =
        some qres ∧
      processCalculations evalE rfuel p.metrics qres st.calcVals =
        some (ys, calc2) ∧
      r.results = ys ∧ st'.calcVals = calc2 ∧
      st'.assigns = st.assigns ++ qres ++ ys := by
  rw [runPanel] at h
  split at h
  · exact Option.noConfusion h
  · rename_i qres hq
    split at h
    · exact Option.noConfusion h
    · rename_i pr ys calc2 hc
      simp only [Option.some.injEq] at h
      have hr : r = ⟨p.title, ys⟩ := (congrArg Prod.fst h).symm
      have hst : st' = ⟨calc2, setVal st.cache p.title ⟨p.title, ys⟩,
          st.queryCalls ++ (relevantQueries queries p).map Prod.snd,
          st.assigns ++ qres ++ ys⟩ := (congrArg Prod.snd h).symm
      refine ⟨by rw [hr], by rw [hst, hr], by rw [hst], qres, ys, calc2,
        hq, hc, by rw [hr], by rw [hst], by rw [hst]⟩

/-- Step equation: in streaming mode, a panel whose title is cached yields
the cached result and changes nothing. -/
theorem processPanelResults_hit (executeQuery : String → Option Int)
    (evalE : String → List (String × Int) → Int) (maxN : Int)
    (qfuel rfuel : Nat) (queries : List (String × String)) (p : Panel)
    (ps : List Panel) (st : ExecState) (r : PanelResult)
    (hr : lookupA st.cache p.title = some r) :
    processPanelResults executeQuery evalE maxN qfuel rfuel true queries
      (p :: ps) st =
    (processPanelResults executeQuery evalE maxN qfuel rfuel true queries
      ps st).map (fun x => (r :: x.1, x.2)) := by
  rw [processPanelResults, if_pos rfl, hr]

/-- Step equation: a non-cached panel whose computation diverges makes the
whole run diverge. -/
theorem processPanelResults_miss_none (executeQuery : String → Option Int)
    (evalE : String → List (String × Int) → Int) (maxN : Int)
    (qfuel rfuel : Nat) (u : Bool) (queries : List (String × String))
    (p : Panel) (ps : List Panel) (st : ExecState)
    (hc : (if u then lookupA st.cache p.title else none) = none)
    (hrp : runPanel executeQuery evalE maxN qfuel rfuel queries p st = none) :
    processPanelResults executeQuery evalE maxN qfuel rfuel u queries
      (p :: ps) st = none := by
  rw [processPanelResults, hc, hrp]

/-- Step equation: a non-cached panel that computes successfully yields its
result and continues from the updated state. -/
theorem processPanelResults_miss_some (executeQuery : String → Option Int)
    (evalE : String → List (String × Int) → Int) (maxN : Int)
    (qfuel rfuel : Nat) (u : Bool) (queries : List (String × String))
    (p : Panel) (ps : List Panel) (st : ExecState) (r : PanelResult)
    (st' : ExecState)
    (hc : (if u then lookupA st.cache p.title else none) = none)
    (hrp : runPanel executeQuery evalE maxN qfuel rfuel queries p st =
      some (r, st')) :
    processPanelResults executeQuery evalE maxN qfuel rfuel u queries
      (p :: ps) st =
    (processPanelResults executeQuery evalE maxN qfuel rfuel u queries
      ps st').map (fun x => (r :: x.1, x.2)) := by
  rw [processPanelResults, hc, hrp]

/-- With pairwise distinct panel titles (the spec's data-model invariant) and
no cached entry for any of them, the streaming flag is unobservable: the
cache-hit branch never fires, so streaming and aggregate runs coincide
exactly. -/
theorem panels_stream_eq (executeQuery : String → Option Int)
    (evalE : String → List (String × Int) → Int) (maxN : Int)
    (qfuel rfuel : Nat) (queries : List (String × String)) :
    ∀ (ps : List Panel) (st : ExecState),
    (ps.map Panel.title).Nodup →
    (∀ t, t ∈ ps.map Panel.title → lookupA st.cache t = none) →
    processPanelResults executeQuery evalE maxN qfuel rfuel true queries ps st =
    processPanelResults executeQuery evalE maxN qfuel rfuel false queries ps st := by
  intro ps
  induction ps with
  | nil => intro st _ _; rfl
  | cons p rest ih =>
    intro st hnd hcache
    have hp : lookupA st.cache p.title = none :=
      hcache p.title (by simp)
    have hct : (if true then lookupA st.cache p.title else none) =
        (none : Option PanelResult) := hp
    have hcf : (if false then lookupA st.cache p.title else none) =
        (none : Option PanelResult) := rfl
    cases hrp : runPanel executeQuery evalE maxN qfuel rfuel queries p st with
    | none =>
      rw [processPanelResults_miss_none executeQuery evalE maxN qfuel rfuel
          true queries p rest st hct hrp,
        processPanelResults_miss_none executeQuery evalE maxN qfuel rfuel
          false queries p rest st hcf hrp]
    | some pr =>
      obtain ⟨r, st'⟩ := pr
      have hstate := runPanel_state executeQuery evalE maxN qfuel rfuel
        queries p st r st' hrp
      have hnd' : (rest.map Panel.title).Nodup := by
        simp only [List.map_cons, List.nodup_cons] at hnd
        exact hnd.2
      have hpt : p.title ∉ rest.map Panel.title := by
        simp only [List.map_cons, List.nodup_cons] at hnd
        exact hnd.1
      have hcache' : ∀ t, t ∈ rest.map Panel.title →
          lookupA st'.cache t = none := by
        intro t ht
        rw [hstate.2.1]
        have htne : t ≠ p.title := by
          intro he
          exact hpt (he ▸ ht)
        rw [lookupA_setVal_ne _ htne]
        exact hcache t (by simp [ht])
      rw [processPanelResults_miss_some executeQuery evalE maxN qfuel rfuel
          true queries p rest st r st' hct hrp,
        processPanelResults_miss_some executeQuery evalE maxN qfuel rfuel
          false queries p rest st r st' hcf hrp]
      rw [ih st' hnd' hcache']

/-- Claim C5: with the spec's data-model invariant that panel titles are
unique across a dashboard, `executeDashboard` returns, for the streaming
flag true (the drained lazy sequence) and false (the eagerly drained list),
exactly the same ordered per-panel results and the same final state, for
every deterministic injected query executor and expression evaluator. -/
theorem c5_stream_eq_aggregate (executeQuery : String → Option Int)
    (evalE : String → List (String × Int) → Int) (maxN : Int)
    (qfuel rfuel : Nat) (cfg : DashboardConfig)
    (hnd : (cfg.panels.map Panel.title).Nodup) :
    executeDashboard executeQuery evalE maxN qfuel rfuel cfg true =
    executeDashboard executeQuery evalE maxN qfuel rfuel cfg false := by
  rw [executeDashboard, executeDashboard]
  exact panels_stream_eq executeQuery evalE maxN qfuel rfuel cfg.queries
    cfg.panels initState hnd (fun t _ => rfl)

/-- Witness for C5 at the spec's end-to-end example dashboard. -/
theorem c5_witness :
    executeDashboard execAB evalX 20 5 5 cfgAB true =
    executeDashboard execAB evalX 20 5 5 cfgAB false :=
  c5_stream_eq_aggregate execAB evalX 20 5 5 cfgAB (by decide)

/-- Step equation: a panel whose cache lookup (under the streaming guard)
produces a result yields it and leaves the state untouched. -/
theorem processPanelResults_cached (executeQuery : String → Option Int)
    (evalE : String → List (String × Int) → Int) (maxN : Int)
    (qfuel rfuel : Nat) (u : Bool) (queries : List (String × String))
    (p : Panel) (ps : List Panel) (st : ExecState) (r : PanelResult)
    (hc : (if u then lookupA st.cache p.title else none) = some r) :
    processPanelResults executeQuery evalE maxN qfuel rfuel u queries
      (p :: ps) st =
    (processPanelResults executeQuery evalE maxN qfuel rfuel u queries
      ps st).map (fun x => (r :: x.1, x.2)) := by
  rw [processPanelResults, hc]

/-- Panel processing splits over list append. -/
theorem processPanelResults_append (executeQuery : String → Option Int)
    (evalE : String → List (String × Int) → Int) (maxN : Int)
    (qfuel rfuel : Nat) (u : Bool) (queries : List (String × String)) :
    ∀ (xs ys : List Panel) (st : ExecState),
    processPanelResults executeQuery evalE maxN qfuel rfuel u queries
      (xs ++ ys) st =
    (processPanelResults executeQuery evalE maxN qfuel rfuel u queries
      xs st).bind (fun a =>
        (processPanelResults executeQuery evalE maxN qfuel rfuel u queries
          ys a.2).map (fun b => (a.1 ++ b.1, b.2))) := by
  intro xs
  induction xs with
  | nil =>
    intro ys st
    rw [List.nil_append]
    cases h : processPanelResults executeQuery evalE maxN qfuel rfuel u
        queries ys st with
    | none => simp [processPanelResults, h]
    | some b => simp [processPanelResults, h]
  | cons p xs ih =>
    intro ys st
    rw [List.cons_append]
    cases hcv : (if u then lookupA st.cache p.title else none) with
    | some r =>
      rw [processPanelResults_cached executeQuery evalE maxN qfuel rfuel u
          queries p (xs ++ ys) st r hcv,
        processPanelResults_cached executeQuery evalE maxN qfuel rfuel u
          queries p xs st r hcv, ih]
      cases hx : processPanelResults executeQuery evalE maxN qfuel rfuel u
          queries xs st with
      | none => rfl
      | some a =>
        cases hy : processPanelResults executeQuery evalE maxN qfuel rfuel u
            queries ys a.2 with
        | none => simp [hy]
        | some b => simp [hy]
    | none =>
      cases hrp : runPanel executeQuery evalE maxN qfuel rfuel queries p st with
      | none =>
        rw [processPanelResults_miss_none executeQuery evalE maxN qfuel rfuel
            u queries p (xs ++ ys) st hcv hrp,
          processPanelResults_miss_none executeQuery evalE maxN qfuel rfuel
            u queries p xs st hcv hrp]
        rfl
      | some pr =>
        obtain ⟨r, st'⟩ := pr
        rw [processPanelResults_miss_some executeQuery evalE maxN qfuel rfuel
            u queries p (xs ++ ys) st r st' hcv hrp,
          processPanelResults_miss_some executeQuery evalE maxN qfuel rfuel
            u queries p xs st r st' hcv hrp, ih]
        cases hx : processPanelResults executeQuery evalE maxN qfuel rfuel u
            queries xs st' with
        | none => rfl
        | some a =>
          cases hy : processPanelResults executeQuery evalE maxN qfuel rfuel u
              queries ys a.2 with
          | none => simp [hy]
          | some b => simp [hy]

/-- Processing panels whose titles all differ from `T` leaves the cache entry
for `T` unchanged. -/
theorem panels_cache_other (executeQuery : String → Option Int)
    (evalE : String → List (String × Int) → Int) (maxN : Int)
    (qfuel rfuel : Nat) (u : Bool) (queries : List (String × String))
    (T : String) :
    ∀ (ps : List Panel) (st : ExecState) res st',
    processPanelResults executeQuery evalE maxN qfuel rfuel u queries ps st =
      some (res, st') →
    T ∉ ps.map Panel.title →
    lookupA st'.cache T = lookupA st.cache T := by
  intro ps
  induction ps with
  | nil =>
    intro st res st' h _
    rw [processPanelResults] at h
    simp only [Option.some.injEq] at h
    have hst : st' = st := by simpa using (congrArg Prod.snd h).symm
    rw [hst]
  | cons p rest ih =>
    intro st res st' h hT
    have hTp : T ≠ p.title := by
      intro he
      exact hT (by simp [he])
    have hTrest : T ∉ rest.map Panel.title := by
      intro hm
      exact hT (by simp [hm])
    cases hcv : (if u then lookupA st.cache p.title else none) with
    | some r =>
      rw [processPanelResults_cached executeQuery evalE maxN qfuel rfuel u
          queries p rest st r hcv] at h
      cases hx : processPanelResults executeQuery evalE maxN qfuel rfuel u
          queries rest st with
      | none =>
        rw [hx] at h
        exact Option.noConfusion h
      | some a =>
        rw [hx] at h
        simp only [Option.map_some', Option.some.injEq] at h
        have hst : st' = a.2 := by
          simpa using (congrArg Prod.snd h).symm
        rw [hst]
        exact ih st a.1 a.2 (by rw [hx]) hTrest
    | none =>
      cases hrp : runPanel executeQuery evalE maxN qfuel rfuel queries p st with
      | none =>
        rw [processPanelResults_miss_none executeQuery evalE maxN qfuel rfuel
            u queries p rest st hcv hrp] at h
        exact Option.noConfusion h
      | some pr =>
        obtain ⟨r, st1⟩ := pr
        rw [processPanelResults_miss_some executeQuery evalE maxN qfuel rfuel
            u queries p rest st r st1 hcv hrp] at h
        cases hx : processPanelResults executeQuery evalE maxN qfuel rfuel u
            queries rest st1 with
        | none =>
          rw [hx] at h
          exact Option.noConfusion h
        | some a =>
          rw [hx] at h
          simp only [Option.map_some', Option.some.injEq] at h
          have hst : st' = a.2 := by
            simpa using (congrArg Prod.snd h).symm
          rw [hst]
          have hmid := ih st1 a.1 a.2 (by rw [hx]) hTrest
          rw [hmid]
          have hcache1 := (runPanel_state executeQuery evalE maxN qfuel rfuel
            queries p st r st1 hrp).2.1
          rw [hcache1, lookupA_setVal_ne _ hTp]

/-- A successful run yields exactly one result per panel. -/
theorem panels_length (executeQuery : String → Option Int)
    (evalE : String → List (String × Int) → Int) (maxN : Int)
    (qfuel rfuel : Nat) (u : Bool) (queries : List (String × String)) :
    ∀ (ps : List Panel) (st : ExecState) res st',
    processPanelResults executeQuery evalE maxN qfuel rfuel u queries ps st =
      some (res, st') →
    res.length = ps.length := by
  intro ps
  induction ps with
  | nil =>
    intro st res st' h
    rw [processPanelResults] at h
    simp only [Option.some.injEq] at h
    have hres : res = [] := by simpa using (congrArg Prod.fst h).symm
    rw [hres]
    rfl
  | cons p rest ih =>
    intro st res st' h
    cases hcv : (if u then lookupA st.cache p.title else none) with
    | some r =>
      rw [processPanelResults_cached executeQuery evalE maxN qfuel rfuel u
          queries p rest st r hcv] at h
      cases hx : processPanelResults executeQuery evalE maxN qfuel rfuel u
          queries rest st with
      | none =>
        rw [hx] at h
        exact Option.noConfusion h
      | some a =>
        rw [hx] at h
        simp only [Option.map_some', Option.some.injEq] at h
        have hres : res = r :: a.1 := by
          simpa using (congrArg Prod.fst h).symm
        rw [hres]
        simp only [List.length_cons]
        rw [ih st a.1 a.2 (by rw [hx])]
    | none =>
      cases hrp : runPanel executeQuery evalE maxN qfuel rfuel queries p st with
      | none =>
        rw [processPanelResults_miss_none executeQuery evalE maxN qfuel rfuel
            u queries p rest st hcv hrp] at h
        exact Option.noConfusion h
      | some pr =>
        obtain ⟨r, st1⟩ := pr
        rw [processPanelResults_miss_some executeQuery evalE maxN qfuel rfuel
            u queries p rest st r st1 hcv hrp] at h
        cases hx : processPanelResults executeQuery evalE maxN qfuel rfuel u
            queries rest st1 with
        | none =>
          rw [hx] at h
          exact Option.noConfusion h
        | some a =>
          rw [hx] at h
          simp only [Option.map_some', Option.some.injEq] at h
          have hres : res = r :: a.1 := by
            simpa using (congrArg Prod.fst h).symm
          rw [hres]
          simp only [List.length_cons]
          rw [ih st1 a.1 a.2 (by rw [hx])]

/-- In streaming mode, after processing a panel whose title is not yet cached
and does not recur later, the cache maps that title to the panel's own
(first) result, which is the head of the produced results. -/
theorem panels_cache_first (executeQuery : String → Option Int)
    (evalE : String → List (String × Int) → Int) (maxN : Int)
    (qfuel rfuel : Nat) (queries : List (String × String)) (p : Panel)
    (ps : List Panel) (st : ExecState) (res : List PanelResult)
    (st' : ExecState)
    (h : processPanelResults executeQuery evalE maxN qfuel rfuel true queries
      (p :: ps) st = some (res, st'))
    (hc : lookupA st.cache p.title = none)
    (hps : p.title ∉ ps.map Panel.title) :
    ∃ r rest', res = r :: rest' ∧ lookupA st'.cache p.title = some r := by
  have hct : (if true then lookupA st.cache p.title else none) =
      (none : Option PanelResult) := hc
  cases hrp : runPanel executeQuery evalE maxN qfuel rfuel queries p st with
  | none =>
    rw [processPanelResults_miss_none executeQuery evalE maxN qfuel rfuel
        true queries p ps st hct hrp] at h
    exact Option.noConfusion h
  | some pr =>
    obtain ⟨r, st1⟩ := pr
    rw [processPanelResults_miss_some executeQuery evalE maxN qfuel rfuel
        true queries p ps st r st1 hct hrp] at h
    cases hx : processPanelResults executeQuery evalE maxN qfuel rfuel true
        queries ps st1 with
    | none =>
      rw [hx] at h
      exact Option.noConfusion h
    | some a =>
      rw [hx] at h
      simp only [Option.map_some', Option.some.injEq] at h
      have hres : res = r :: a.1 := by
        simpa using (congrArg Prod.fst h).symm
      have hst : st' = a.2 := by
        simpa using (congrArg Prod.snd h).symm
      refine ⟨r, a.1, hres, ?_⟩
      rw [hst]
      rw [panels_cache_other executeQuery evalE maxN qfuel rfuel true queries
        p.title ps st1 a.1 a.2 (by rw [hx]) hps]
      rw [(runPanel_state executeQuery evalE maxN qfuel rfuel queries p st r
        st1 hrp).2.1]
      exact lookupA_setVal_self _ _ _

/-- Claim C8: within one streaming `executeDashboard` call, a panel title
that recurs after having been produced is served from the cache: the repeated
panel contributes exactly the first result computed for that title, and the
state — in particular the trace of Query Execution calls — is unchanged by
the repeated request. -/
theorem c8_streaming_cache_replay (executeQuery : String → Option Int)
    (evalE : String → List (String × Int) → Int) (maxN : Int)
    (qfuel rfuel : Nat) (cfg : DashboardConfig) (ps1 ps2 : List Panel)
    (p q : Panel) (outs : List PanelResult) (st : ExecState)
    (hpanels : cfg.panels = (ps1 ++ p :: ps2) ++ [q])
    (hqt : q.title = p.title)
    (h1 : p.title ∉ ps1.map Panel.title)
    (h2 : p.title ∉ ps2.map Panel.title)
    (hrun : processPanelResults executeQuery evalE maxN qfuel rfuel true
      cfg.queries (ps1 ++ p :: ps2) initState = some (outs, st)) :
    ∃ r, outs[ps1.length]? = some r ∧
      executeDashboard executeQuery evalE maxN qfuel rfuel cfg true =
        some (outs ++ [r], st) := by
  have hsplit := processPanelResults_append executeQuery evalE maxN qfuel
    rfuel true cfg.queries ps1 (p :: ps2) initState
  rw [hrun] at hsplit
  cases ha : processPanelResults executeQuery evalE maxN qfuel rfuel true
      cfg.queries ps1 initState with
  | none =>
    rw [ha] at hsplit
    exact Option.noConfusion hsplit
  | some a =>
    rw [ha] at hsplit
    simp only [Option.some_bind] at hsplit
    cases hb : processPanelResults executeQuery evalE maxN qfuel rfuel true
        cfg.queries (p :: ps2) a.2 with
    | none =>
      rw [hb] at hsplit
      exact Option.noConfusion hsplit
    | some b =>
      rw [hb] at hsplit
      simp only [Option.map_some', Option.some.injEq] at hsplit
      have houts : outs = a.1 ++ b.1 := by
        simpa using (congrArg Prod.fst hsplit)
      have hst : st = b.2 := by
        simpa using (congrArg Prod.snd hsplit)
      have hcach1 : lookupA a.2.cache p.title = none := by
        rw [panels_cache_other executeQuery evalE maxN qfuel rfuel true
          cfg.queries p.title ps1 initState a.1 a.2 (by rw [ha]) h1]
        rfl
      rcases panels_cache_first executeQuery evalE maxN qfuel rfuel
          cfg.queries p ps2 a.2 b.1 b.2 (by rw [hb]) hcach1 h2 with
        ⟨r, rest', hb1, hcache⟩
      have hlen : a.1.length = ps1.length :=
        panels_length executeQuery evalE maxN qfuel rfuel true cfg.queries
          ps1 initState a.1 a.2 (by rw [ha])
      refine ⟨r, ?_, ?_⟩
      · rw [houts, hb1, ← hlen]
        rw [List.getElem?_append_right le_rfl]
        simp
      · rw [executeDashboard, hpanels]
        rw [processPanelResults_append executeQuery evalE maxN qfuel rfuel
          true cfg.queries (ps1 ++ p :: ps2) [q] initState]
        rw [hrun]
        simp only [Option.some_bind]
        have hqcache : lookupA st.cache q.title = some r := by
          rw [hqt, hst]
          exact hcache
        have hqct : (if true then lookupA st.cache q.title else none) =
            some r := hqcache
        rw [processPanelResults_cached executeQuery evalE maxN qfuel rfuel
          true cfg.queries q [] st r hqct]
        rw [processPanelResults]
        rfl

/-- Witness for C8: a dashboard with two panels titled "P"; the second is
served from the cache with the first's result and no further query calls. -/
theorem c8_witness :
    ∃ r, ([⟨"P", [("mg", 8)]⟩] : List PanelResult)[([] : List Panel).length]? =
        some r ∧
      executeDashboard execG evalX 20 5 5
        ⟨[("g", "qg"), ("a", "qa")], none,
         [⟨"P", [⟨"mg", "g + 1", ["g"]⟩]⟩, ⟨"P", [⟨"m2", "a + 1", ["a"]⟩]⟩]⟩
        true =
        some (([⟨"P", [("mg", 8)]⟩] : List PanelResult) ++ [r],
          ⟨[("g", 7), ("mg", 8)], [("P", ⟨"P", [("mg", 8)]⟩)], ["qg"],
           [("g", 7), ("mg", 8)]⟩) :=
  c8_streaming_cache_replay execG evalX 20 5 5
    ⟨[("g", "qg"), ("a", "qa")], none,
     [⟨"P", [⟨"mg", "g + 1", ["g"]⟩]⟩, ⟨"P", [⟨"m2", "a + 1", ["a"]⟩]⟩]⟩
    [] [] ⟨"P", [⟨"mg", "g + 1", ["g"]⟩]⟩ ⟨"P", [⟨"m2", "a + 1", ["a"]⟩]⟩
    [⟨"P", [("mg", 8)]⟩]
    ⟨[("g", 7), ("mg", 8)], [("P", ⟨"P", [("mg", 8)]⟩)], ["qg"],
     [("g", 7), ("mg", 8)]⟩
    (by decide) (by decide) (by decide) (by decide) (by decide)

/-- If query `f`'s text rejects and no metric is named `f`, then across all
panels the identifier `f` is never assigned into the shared values and never
appears in the assignment trace. -/
theorem panels_f_free (executeQuery : String → Option Int)
    (evalE : String → List (String × Int) → Int) (maxN : Int)
    (qfuel rfuel : Nat) (u : Bool) (queries : List (String × String))
    (f qf : String) (hq : lookupA queries f = some qf)
    (hfail : executeQuery qf = none) :
    ∀ (ps : List Panel) (st : ExecState) res st',
    (∀ p, p ∈ ps → ∀ m, m ∈ p.metrics → m.id ≠ f) →
    processPanelResults executeQuery evalE maxN qfuel rfuel u queries ps st =
      some (res, st') →
    f ∉ st.assigns.map Prod.fst →
    lookupA st.calcVals f = none →
    f ∉ st'.assigns.map Prod.fst ∧ lookupA st'.calcVals f = none := by
  intro ps
  induction ps with
  | nil =>
    intro st res st' _ h ha hc
    rw [processPanelResults] at h
    simp only [Option.some.injEq] at h
    have hst : st' = st := by simpa using (congrArg Prod.snd h).symm
    rw [hst]
    exact ⟨ha, hc⟩
  | cons p rest ih =>
    intro st res st' hids h ha hc
    have hids' : ∀ p', p' ∈ rest → ∀ m, m ∈ p'.metrics → m.id ≠ f :=
      fun p' hp' => hids p' (by simp [hp'])
    cases hcv : (if u then lookupA st.cache p.title else none) with
    | some r =>
      rw [processPanelResults_cached executeQuery evalE maxN qfuel rfuel u
          queries p rest st r hcv] at h
      cases hx : processPanelResults executeQuery evalE maxN qfuel rfuel u
          queries rest st with
      | none =>
        rw [hx] at h
        exact Option.noConfusion h
      | some a =>
        rw [hx] at h
        simp only [Option.map_some', Option.some.injEq] at h
        have hst : st' = a.2 := by simpa using (congrArg Prod.snd h).symm
        rw [hst]
        exact ih st a.1 a.2 hids' (by rw [hx]) ha hc
    | none =>
      cases hrp : runPanel executeQuery evalE maxN qfuel rfuel queries p st with
      | none =>
        rw [processPanelResults_miss_none executeQuery evalE maxN qfuel rfuel
            u queries p rest st hcv hrp] at h
        exact Option.noConfusion h
      | some pr =>
        obtain ⟨r, st1⟩ := pr
        rw [processPanelResults_miss_some executeQuery evalE maxN qfuel rfuel
            u queries p rest st r st1 hcv hrp] at h
        cases hx : processPanelResults executeQuery evalE maxN qfuel rfuel u
            queries rest st1 with
        | none =>
          rw [hx] at h
          exact Option.noConfusion h
        | some a =>
          rw [hx] at h
          simp only [Option.map_some', Option.some.injEq] at h
          have hst : st' = a.2 := by simpa using (congrArg Prod.snd h).symm
          rcases (runPanel_state executeQuery evalE maxN qfuel rfuel queries
            p st r st1 hrp).2.2.2 with ⟨qres, ys, calc2, hpq, hpc, _, hcv1, has1⟩
          have hqres : f ∉ qres.map Prod.fst := by
            intro hm
            rcases List.mem_map.mp hm with ⟨e, he, hef⟩
            have heq := processQueries_some_eq executeQuery maxN qfuel
              (relevantQueries queries p) qres hpq
            rw [heq] at he
            rcases List.mem_filterMap.mp he with ⟨pr', hpr', hpe⟩
            cases hex : executeQuery pr'.2 with
            | none =>
              rw [hex] at hpe
              exact Option.noConfusion hpe
            | some v =>
              rw [hex] at hpe
              simp only [Option.map_some', Option.some.injEq] at hpe
              have hpr1 : pr'.1 = f := by rw [← hef, ← hpe]
              have hval := (relevantQueries_val queries p pr' hpr').1
              rw [hpr1, hq] at hval
              have : pr'.2 = qf := by
                simpa using hval.symm
              rw [this, hfail] at hex
              exact Option.noConfusion hex
          have hys : f ∉ ys.map Prod.fst := by
            intro hm
            rcases List.mem_map.mp hm with ⟨e, he, hef⟩
            have hid := calcLoop_ids evalE rfuel p.metrics
              (drainQueries st.calcVals qres) ys calc2 hpc e he
            rcases List.mem_map.mp hid with ⟨m, hmm, hmid⟩
            exact hids p (by simp) m hmm (by rw [hmid, hef])
          have ha1 : f ∉ st1.assigns.map Prod.fst := by
            rw [has1]
            simp only [List.map_append, List.mem_append]
            push_neg
            exact ⟨⟨ha, hqres⟩, hys⟩
          have hc1 : lookupA st1.calcVals f = none := by
            rw [hcv1]
            cases hval : lookupA calc2 f with
            | none => rfl
            | some v =>
              exfalso
              have hsome : (lookupA calc2 f).isSome := by simp [hval]
              rcases calcLoop_new evalE rfuel p.metrics
                  (drainQueries st.calcVals qres) ys calc2 hpc f hsome with
                h1 | h1
              · rw [drainQueries_not_mem qres st.calcVals f hqres, hc] at h1
                simp at h1
              · rcases List.mem_map.mp h1 with ⟨m, hmm, hmid⟩
                exact hids p (by simp) m hmm hmid
          rw [hst]
          exact ih st1 a.1 a.2 hids' (by rw [hx]) ha1 hc1

/-- Claim C7: a failing query is isolated.  At the batcher level its
identifier is excluded from the output while every other successful query of
the same or any later batch is still yielded, and the batcher itself returns
normally; at the engine level the identifier never enters the shared
ResolvedValues nor the assignment trace of a completed `executeDashboard`
call. -/
theorem c7_failing_query_isolated (executeQuery : String → Option Int)
    (maxN : Int) (f qf : String) (hfail : executeQuery qf = none) :
    (∀ es : List (String × String), 1 ≤ maxN → (es.map Prod.fst).Nodup →
      (f, qf) ∈ es →
      ∃ out, processQueries executeQuery maxN es.length es = some out ∧
        f ∉ out.map Prod.fst ∧
        (∀ i query v, (i, query) ∈ es → i ≠ f → executeQuery query = some v →
          (i, v) ∈ out)) ∧
    (∀ (evalE : String → List (String × Int) → Int) (qfuel rfuel : Nat)
      (u : Bool) (cfg : DashboardConfig) (res : List PanelResult)
      (st : ExecState),
      lookupA cfg.queries f = some qf →
      (∀ p, p ∈ cfg.panels → ∀ m, m ∈ p.metrics → m.id ≠ f) →
      executeDashboard executeQuery evalE maxN qfuel rfuel cfg u =
        some (res, st) →
      f ∉ st.assigns.map Prod.fst ∧ lookupA st.calcVals f = none) := by
  constructor
  · intro es hn hkeys hf
    refine ⟨es.filterMap (fun p => (executeQuery p.2).map (fun v => (p.1, v))),
      processQueries_complete executeQuery maxN hn es.length es le_rfl, ?_, ?_⟩
    · intro hm
      rcases List.mem_map.mp hm with ⟨e, he, hef⟩
      rcases List.mem_filterMap.mp he with ⟨pr', hpr', hpe⟩
      cases hex : executeQuery pr'.2 with
      | none =>
        rw [hex] at hpe
        exact Option.noConfusion hpe
      | some v =>
        rw [hex] at hpe
        simp only [Option.map_some', Option.some.injEq] at hpe
        have hpr1 : pr'.1 = f := by rw [← hef, ← hpe]
        have hqeq : pr'.2 = qf := by
          have hpr'' : (f, pr'.2) ∈ es := by
            rw [← hpr1]
            exact hpr'
          exact nodupKeys_eq hkeys hpr'' hf
        rw [hqeq, hfail] at hex
        exact Option.noConfusion hex
    · intro i query v hiq _ hex
      apply List.mem_filterMap.mpr
      exact ⟨(i, query), hiq, by rw [hex]; rfl⟩
  · intro evalE qfuel rfuel u cfg res st hq hids hrun
    exact panels_f_free executeQuery evalE maxN qfuel rfuel u cfg.queries
      f qf hq hfail cfg.panels initState res st hids hrun
      (by simp [initState]) rfl

/-- Witness for C7: query "f" (text "qf") rejects under `execG`; in a batcher
run with ceiling 2 the same-batch query "g" and the later-batch query "h" are
still yielded; in a full `executeDashboard` over `cfgFail` the identifier "f"
never enters the assignment trace or the resolved values. -/
theorem c7_witness :
    (∃ out, processQueries execG 2
        ([("f", "qf"), ("g", "qg"), ("h", "qh")] : List (String × String)).length
        [("f", "qf"), ("g", "qg"), ("h", "qh")] = some out ∧
      "f" ∉ out.map Prod.fst ∧
      (∀ i query v,
        (i, query) ∈ ([("f", "qf"), ("g", "qg"), ("h", "qh")] :
          List (String × String)) →
        i ≠ "f" → execG query = some v → (i, v) ∈ out)) ∧
    ("f" ∉ (([("g", 7), ("mg", 8)] : List (String × Int)).map Prod.fst) ∧
      lookupA ([("g", 7), ("mg", 8)] : List (String × Int)) "f" = none) := by
  have h := c7_failing_query_isolated execG 2 "f" "qf" (by decide)
  refine ⟨h.1 [("f", "qf"), ("g", "qg"), ("h", "qh")] (by norm_num)
    (by decide) (by decide), ?_⟩
  exact h.2 evalX 5 5 false cfgFail [⟨"P", [("mg", 8)]⟩]
    ⟨[("g", 7), ("mg", 8)], [("P", ⟨"P", [("mg", 8)]⟩)], ["qg"],
     [("g", 7), ("mg", 8)]⟩ (by decide) (by decide) (by decide)

/-- The scanner substitutes successfully when every referenced token is
supplied, and any failure names a referenced token that is missing. -/
theorem substAux_sound (vars : List (String × String)) :
    ∀ s : List Char,
    ((∀ t, t ∈ tokenList s → (lookupA vars t).isSome) →
      ∃ out, replaceVarsAux vars s = Except.ok out) ∧
    (∀ e, replaceVarsAux vars s = Except.error e →
      ∃ t, t ∈ tokenList s ∧ lookupA vars t = none ∧
        e = "Missing required variable: " ++ t) := by
  intro s
  induction s using replaceVarsAux.induct vars with
  | case1 =>
    constructor
    · intro _
      exact ⟨[], by rw [replaceVarsAux]⟩
    · intro e he
      rw [replaceVarsAux] at he
      exact Except.noConfusion he
  | case2 rest hcond v hv ih =>
    rw [replaceVarsAux, tokenList, if_pos hcond, if_pos hcond, hv]
    constructor
    · intro hall
      rcases ih.1 (fun t ht => hall t (by simp [ht])) with ⟨out, hout⟩
      rw [hout]
      exact ⟨v.data ++ out, rfl⟩
    · intro e he
      cases hrec : replaceVarsAux vars ((rest.dropWhile isWordChar).drop 2) with
      | ok out =>
        rw [hrec] at he
        exact Except.noConfusion he
      | error e' =>
        rw [hrec] at he
        have he' : e' = e := by
          simpa [Except.map] using he
        rcases ih.2 e' hrec with ⟨t, ht, hn, hmsg⟩
        exact ⟨t, by simp [ht], hn, by rw [← he', hmsg]⟩
  | case3 rest hcond hv =>
    rw [replaceVarsAux, tokenList, if_pos hcond, if_pos hcond, hv]
    constructor
    · intro hall
      exfalso
      have := hall (String.mk (rest.takeWhile isWordChar)) (by simp)
      rw [hv] at this
      simp at this
    · intro e he
      refine ⟨String.mk (rest.takeWhile isWordChar), by simp, hv, ?_⟩
      have := Except.error.inj he
      rw [← this]
  | case4 rest hcond ih =>
    rw [replaceVarsAux, tokenList, if_neg hcond, if_neg hcond]
    constructor
    · intro hall
      rcases ih.1 hall with ⟨out, hout⟩
      rw [hout]
      exact ⟨'{' :: out, rfl⟩
    · intro e he
      cases hrec : replaceVarsAux vars ('{' :: rest) with
      | ok out =>
        rw [hrec] at he
        exact Except.noConfusion he
      | error e' =>
        rw [hrec] at he
        have he' : e' = e := by
          simpa [Except.map] using he
        rcases ih.2 e' hrec with ⟨t, ht, hn, hmsg⟩
        exact ⟨t, ht, hn, by rw [← he', hmsg]⟩
  | case5 c cs hne ih =>
    have hrw : replaceVarsAux vars (c :: cs) =
        (replaceVarsAux vars cs).map (fun t => c :: t) := by
      rw [replaceVarsAux]
      exact hne
    have htk : tokenList (c :: cs) = tokenList cs := by
      rw [tokenList]
      exact hne
    rw [hrw, htk]
    constructor
    · intro hall
      rcases ih.1 hall with ⟨out, hout⟩
      rw [hout]
      exact ⟨c :: out, rfl⟩
    · intro e he
      cases hrec : replaceVarsAux vars cs with
      | ok out =>
        rw [hrec] at he
        exact Except.noConfusion he
      | error e' =>
        rw [hrec] at he
        have he' : e' = e := by
          simpa [Except.map] using he
        rcases ih.2 e' hrec with ⟨t, ht, hn, hmsg⟩
        exact ⟨t, ht, hn, by rw [← he', hmsg]⟩

theorem replaceVariables_ok (template : String) (vars : List (String × String))
    (h : ∀ t, t ∈ tokenList template.data → (lookupA vars t).isSome) :
    ∃ out, replaceVariables template vars = Except.ok out := by
  rcases (substAux_sound vars template.data).1 h with ⟨out, hout⟩
  refine ⟨String.mk out, ?_⟩
  rw [replaceVariables, hout]
  rfl

theorem replaceVariables_err (template : String) (vars : List (String × String))
    (e : String) (h : replaceVariables template vars = Except.error e) :
    ∃ t, t ∈ tokenList template.data ∧ lookupA vars t = none ∧
      e = "Missing required variable: " ++ t := by
  rw [replaceVariables] at h
  cases haux : replaceVarsAux vars template.data with
  | ok out =>
    rw [haux] at h
    exact Except.noConfusion h
  | error e' =>
    rw [haux] at h
    have he : e' = e := by
      simpa [Except.map] using h
    exact he ▸ (substAux_sound vars template.data).2 e' haux

theorem substQueries_ok (vars : List (String × String)) :
    ∀ l : List (String × String),
    (∀ p, p ∈ l → ∃ q', replaceVariables p.2 vars = Except.ok q') →
    ∃ out, substQueries vars l = Except.ok out := by
  intro l
  induction l with
  | nil => intro _; exact ⟨[], rfl⟩
  | cons p rest ih =>
    intro h
    obtain ⟨k, q⟩ := p
    rcases h (k, q) (by simp) with ⟨q', hq'⟩
    rcases ih (fun p hp => h p (by simp [hp])) with ⟨out, hout⟩
    refine ⟨(k, q') :: out, ?_⟩
    rw [substQueries]
    rw [hq', hout]
    rfl

theorem substQueries_err (vars : List (String × String)) :
    ∀ (l : List (String × String)) (e : String),
    substQueries vars l = Except.error e →
    ∃ p, p ∈ l ∧ replaceVariables p.2 vars = Except.error e := by
  intro l
  induction l with
  | nil =>
    intro e h
    exact Except.noConfusion h
  | cons p rest ih =>
    intro e h
    obtain ⟨k, q⟩ := p
    rw [substQueries] at h
    cases hq : replaceVariables q vars with
    | error e' =>
      rw [hq] at h
      have : e' = e := by
        simpa [Bind.bind, Except.bind] using h
      exact ⟨(k, q), by simp, by rw [hq, this]⟩
    | ok q' =>
      rw [hq] at h
      cases hrest : substQueries vars rest with
      | error e2 =>
        rw [hrest] at h
        have : e2 = e := by
          simpa [Bind.bind, Except.bind] using h
        rcases ih e2 hrest with ⟨p2, hp2, herr⟩
        exact ⟨p2, by simp [hp2], by rw [herr, this]⟩
      | ok out =>
        rw [hrest] at h
        simp [Bind.bind, Except.bind] at h

theorem substMetrics_ok (vars : List (String × String)) :
    ∀ l : List Metric,
    (∀ m, m ∈ l → ∃ e', replaceVariables m.expression vars = Except.ok e') →
    ∃ out, substMetrics vars l = Except.ok out := by
  intro l
  induction l with
  | nil => intro _; exact ⟨[], rfl⟩
  | cons m rest ih =>
    intro h
    rcases h m (by simp) with ⟨e', he'⟩
    rcases ih (fun m' hm' => h m' (by simp [hm'])) with ⟨out, hout⟩
    refine ⟨⟨m.id, e', m.dependencies⟩ :: out, ?_⟩
    rw [substMetrics]
    rw [he', hout]
    rfl

theorem substMetrics_err (vars : List (String × String)) :
    ∀ (l : List Metric) (e : String),
    substMetrics vars l = Except.error e →
    ∃ m, m ∈ l ∧ replaceVariables m.expression vars = Except.error e := by
  intro l
  induction l with
  | nil =>
    intro e h
    exact Except.noConfusion h
  | cons m rest ih =>
    intro e h
    rw [substMetrics] at h
    cases hq : replaceVariables m.expression vars with
    | error e' =>
      rw [hq] at h
      have : e' = e := by
        simpa [Bind.bind, Except.bind] using h
      exact ⟨m, by simp, by rw [hq, this]⟩
    | ok q' =>
      rw [hq] at h
      cases hrest : substMetrics vars rest with
      | error e2 =>
        rw [hrest] at h
        have : e2 = e := by
          simpa [Bind.bind, Except.bind] using h
        rcases ih e2 hrest with ⟨m2, hm2, herr⟩
        exact ⟨m2, by simp [hm2], by rw [herr, this]⟩
      | ok out =>
        rw [hrest] at h
        simp [Bind.bind, Except.bind] at h

theorem substPanels_ok (vars : List (String × String)) :
    ∀ l : List Panel,
    (∀ p, p ∈ l → ∀ m, m ∈ p.metrics →
      ∃ e', replaceVariables m.expression vars = Except.ok e') →
    ∃ out, substPanels vars l = Except.ok out := by
  intro l
  induction l with
  | nil => intro _; exact ⟨[], rfl⟩
  | cons p rest ih =>
    intro h
    rcases substMetrics_ok vars p.metrics (h p (by simp)) with ⟨ms, hms⟩
    rcases ih (fun p' hp' => h p' (by simp [hp'])) with ⟨out, hout⟩
    refine ⟨⟨p.title, ms⟩ :: out, ?_⟩
    rw [substPanels]
    rw [hms, hout]
    rfl

theorem substPanels_err (vars : List (String × String)) :
    ∀ (l : List Panel) (e : String),
    substPanels vars l = Except.error e →
    ∃ p, p ∈ l ∧ ∃ m, m ∈ p.metrics ∧
      replaceVariables m.expression vars = Except.error e := by
  intro l
  induction l with
  | nil =>
    intro e h
    exact Except.noConfusion h
  | cons p rest ih =>
    intro e h
    rw [substPanels] at h
    cases hq : substMetrics vars p.metrics with
    | error e' =>
      rw [hq] at h
      have he : e' = e := by
        simpa [Bind.bind, Except.bind] using h
      rcases substMetrics_err vars p.metrics e' hq with ⟨m, hm, herr⟩
      exact ⟨p, by simp, m, hm, by rw [herr, he]⟩
    | ok ms =>
      rw [hq] at h
      cases hrest : substPanels vars rest with
      | error e2 =>
        rw [hrest] at h
        have he : e2 = e := by
          simpa [Bind.bind, Except.bind] using h
        rcases ih e2 hrest with ⟨p2, hp2, m2, hm2, herr⟩
        exact ⟨p2, by simp [hp2], m2, hm2, by rw [herr, he]⟩
      | ok out =>
        rw [hrest] at h
        simp [Bind.bind, Except.bind] at h

theorem templateTokens_query (t : DashboardConfig) (p : String × String)
    (hp : p ∈ t.queries) (tok : String) (ht : tok ∈ tokenList p.2.data) :
    tok ∈ templateTokens t := by
  rw [templateTokens]
  apply List.mem_append.mpr
  left
  apply List.mem_flatten.mpr
  exact ⟨tokenList p.2.data, List.mem_map_of_mem _ hp, ht⟩

theorem templateTokens_metric (t : DashboardConfig) (panel : Panel)
    (hpl : panel ∈ t.panels) (m : Metric) (hm : m ∈ panel.metrics)
    (tok : String) (ht : tok ∈ tokenList m.expression.data) :
    tok ∈ templateTokens t := by
  rw [templateTokens]
  apply List.mem_append.mpr
  right
  apply List.mem_flatten.mpr
  refine ⟨(panel.metrics.map (fun m => tokenList m.expression.data)).flatten,
    List.mem_map_of_mem _ hpl, ?_⟩
  apply List.mem_flatten.mpr
  exact ⟨tokenList m.expression.data, List.mem_map_of_mem _ hm, ht⟩

theorem execBody_ok (t : DashboardConfig) (vars : List (String × String))
    (hq : ∀ p, p ∈ t.queries → ∃ q', replaceVariables p.2 vars = Except.ok q')
    (hm : ∀ p, p ∈ t.panels → ∀ m, m ∈ p.metrics →
      ∃ e', replaceVariables m.expression vars = Except.ok e') :
    ∃ out, execBody t vars = Except.ok out := by
  rcases substQueries_ok vars t.queries hq with ⟨qs, hqs⟩
  rcases substPanels_ok vars t.panels hm with ⟨ps, hps⟩
  refine ⟨⟨qs, t.declaredVars, ps⟩, ?_⟩
  rw [execBody, hqs, hps]
  rfl

theorem execBody_err (t : DashboardConfig) (vars : List (String × String))
    (e : String) (h : execBody t vars = Except.error e) :
    (∃ p, p ∈ t.queries ∧ replaceVariables p.2 vars = Except.error e) ∨
    (∃ p, p ∈ t.panels ∧ ∃ m, m ∈ p.metrics ∧
      replaceVariables m.expression vars = Except.error e) := by
  rw [execBody] at h
  cases hqs : substQueries vars t.queries with
  | error e' =>
    rw [hqs] at h
    have he : e' = e := by
      simpa [Bind.bind, Except.bind] using h
    exact Or.inl (he ▸ substQueries_err vars t.queries e' hqs)
  | ok qs =>
    rw [hqs] at h
    cases hps : substPanels vars t.panels with
    | error e2 =>
      rw [hps] at h
      have he : e2 = e := by
        simpa [Bind.bind, Except.bind] using h
      exact Or.inr (he ▸ substPanels_err vars t.panels e2 hps)
    | ok ps =>
      rw [hps] at h
      simp [Bind.bind, Except.bind] at h

/-- Claim C6 counterexample: the template's query "{{x}}" references the
token x, which is neither declared nor supplied; the Variables mapping [] is
a superset of the declared names (there are none), yet `exec` fails — so the
claim's "succeeds for every Variables mapping whose keys are a superset of
the declared names" is false. -/
theorem c6_counterexample :
    QuickDashParser.exec ⟨[("q", "{{x}}")], none, []⟩ [] =
      Except.error "Missing required variable: x" := by
  simp [QuickDashParser.exec, execBody, substQueries, substPanels,
    replaceVariables, replaceVarsAux, tokenList, lookupA, isWordChar,
    Bind.bind, Except.bind, Except.map]

/-- Unfolding of `QuickDashParser.exec` when variables are declared. -/
theorem QDexec_some (template : DashboardConfig)
    (vars : List (String × String)) (decls : List String)
    (hdecl : template.declaredVars = some decls) :
    QuickDashParser.exec template vars =
    (if (decls.filter (fun v => (lookupA vars v).isNone)).isEmpty = true
     then execBody template vars
     else Except.error ("Missing required variables: " ++
       String.intercalate ", "
         (decls.filter (fun v => (lookupA vars v).isNone)))) := by
  rw [QuickDashParser.exec, hdecl]

/-- Unfolding of `QuickDashParser.exec` when no variables are declared. -/
theorem QDexec_none (template : DashboardConfig)
    (vars : List (String × String))
    (hdecl : template.declaredVars = none) :
    QuickDashParser.exec template vars = execBody template vars := by
  rw [QuickDashParser.exec, hdecl]

/-- Claim C6 amended: `QuickDashParser.exec` (a) fails reporting all missing
declared names at once whenever any declared name is absent; (b) every
failure is either that report or names the specific referenced-but-unsupplied
token substitution encountered; and (c) it succeeds for every Variables
mapping that supplies every declared name and every token referenced in the
query texts and metric expressions. -/
theorem c6_amended_exec (template : DashboardConfig)
    (vars : List (String × String)) :
    (∀ decls, template.declaredVars = some decls →
      decls.filter (fun v => (lookupA vars v).isNone) ≠ [] →
      QuickDashParser.exec template vars = Except.error
        ("Missing required variables: " ++ String.intercalate ", "
          (decls.filter (fun v => (lookupA vars v).isNone)))) ∧
    (∀ e, QuickDashParser.exec template vars = Except.error e →
      (∃ decls, template.declaredVars = some decls ∧
        e = "Missing required variables: " ++ String.intercalate ", "
          (decls.filter (fun v => (lookupA vars v).isNone))) ∨
      (∃ tok, tok ∈ templateTokens template ∧ lookupA vars tok = none ∧
        e = "Missing required variable: " ++ tok)) ∧
    ((∀ decls, template.declaredVars = some decls →
        ∀ d, d ∈ decls → (lookupA vars d).isSome) →
      (∀ tok, tok ∈ templateTokens template → (lookupA vars tok).isSome) →
      ∃ out, QuickDashParser.exec template vars = Except.ok out) := by
  have hbody : ∀ e, execBody template vars = Except.error e →
      (∃ tok, tok ∈ templateTokens template ∧ lookupA vars tok = none ∧
        e = "Missing required variable: " ++ tok) := by
    intro e h2
    rcases execBody_err template vars e h2 with ⟨p, hp, herr⟩ | ⟨p, hp, m, hm, herr⟩
    · rcases replaceVariables_err p.2 vars e herr with ⟨tok, ht, hn, hmsg⟩
      exact ⟨tok, templateTokens_query template p hp tok ht, hn, hmsg⟩
    · rcases replaceVariables_err m.expression vars e herr with
        ⟨tok, ht, hn, hmsg⟩
      exact ⟨tok, templateTokens_metric template p hp m hm tok ht, hn, hmsg⟩
  refine ⟨?_, ?_, ?_⟩
  · intro decls hdecl hne
    rw [QDexec_some template vars decls hdecl]
    rw [if_neg (fun h => hne (List.isEmpty_eq_true.mp h))]
  · intro e he
    cases hdecl : template.declaredVars with
    | none =>
      rw [QDexec_none template vars hdecl] at he
      exact Or.inr (hbody e he)
    | some decls =>
      rw [QDexec_some template vars decls hdecl] at he
      by_cases hne : decls.filter (fun v => (lookupA vars v).isNone) = []
      · rw [if_pos (List.isEmpty_eq_true.mpr hne)] at he
        exact Or.inr (hbody e he)
      · rw [if_neg (fun h => hne (List.isEmpty_eq_true.mp h))] at he
        exact Or.inl ⟨decls, rfl, (Except.error.inj he).symm⟩
  · intro hdecls htoks
    have hq : ∀ p, p ∈ template.queries →
        ∃ q', replaceVariables p.2 vars = Except.ok q' := by
      intro p hp
      apply replaceVariables_ok
      intro t ht
      exact htoks t (templateTokens_query template p hp t ht)
    have hm : ∀ p, p ∈ template.panels → ∀ m, m ∈ p.metrics →
        ∃ e', replaceVariables m.expression vars = Except.ok e' := by
      intro p hp m hm
      apply replaceVariables_ok
      intro t ht
      exact htoks t (templateTokens_metric template p hp m hm t ht)
    rcases execBody_ok template vars hq hm with ⟨out, hout⟩
    cases hdecl : template.declaredVars with
    | none =>
      refine ⟨out, ?_⟩
      rw [QDexec_none template vars hdecl]
      exact hout
    | some decls =>
      have hmt : decls.filter (fun v => (lookupA vars v).isNone) = [] := by
        apply List.filter_eq_nil_iff.mpr
        intro d hd
        have hs := hdecls decls hdecl d hd
        intro hno
        rw [Option.isNone_iff_eq_none] at hno
        rw [hno] at hs
        simp at hs
      refine ⟨out, ?_⟩
      rw [QDexec_some template vars decls hdecl]
      rw [if_pos (List.isEmpty_eq_true.mpr hmt)]
      exact hout

/-- Witness for the amended C6: a template declaring x and y rejects an empty
Variables mapping naming both at once, and a template whose query references
only the supplied token x parses successfully. -/
theorem c6_witness :
    QuickDashParser.exec ⟨[("q", "{{x}}")], some ["x", "y"], []⟩ [] =
      Except.error "Missing required variables: x, y" ∧
    ∃ out, QuickDashParser.exec ⟨[("q", "{{x}}")], some ["x"], []⟩
      [("x", "42")] = Except.ok out := by
  constructor
  · have h := (c6_amended_exec ⟨[("q", "{{x}}")], some ["x", "y"], []⟩ []).1
      ["x", "y"] rfl (by decide)
    rw [h]
    congr 1
  · refine (c6_amended_exec ⟨[("q", "{{x}}")], some ["x"], []⟩
      [("x", "42")]).2.2 ?_ ?_
    · intro decls hd d hdd
      have hde : decls = ["x"] := by
        simpa using hd.symm
      subst hde
      have hdx : d = "x" := by simpa using hdd
      subst hdx
      decide
    · intro tok htok
      simp only [templateTokens] at htok
      simp [tokenList, isWordChar] at htok
      subst htok
      decide
